import Mathlib

/-!
# Verification of the `complex` expression evaluator

Shallow embedding of `src/unnamed/part_000` (the `Complex` class: value type,
tokenizer/normalizer and recursive-descent parser) and of the thin consumer
`src/src/cli.ts`.

Modelling conventions:
* JavaScript double-precision numbers are modelled by exact rationals (`ℚ`)
  wherever the code stays in the finite fragment; rounding, overflow and
  negative zero are idealized away.  A separate type `JsNum` with `nan` and
  signed infinities is used for the constructor claims, where the
  distinction between "NaN" and "non-finite" is the point.
* The transcendental `Math` builtins (`cos`, `sin`, `atan2`, `log`,
  `x ** 0.5`, `Math.E ** x`) are environment-provided, not repository code;
  they are modelled as fields of a `RealOps` parameter threaded through the
  functions that use them.  The claims proved below hold for every choice
  of `RealOps`.
* The mutually recursive parser functions of the source mutate a shared
  front-truncatable token array; here each function takes the token list
  and returns the value together with the remaining list.  Recursion is
  made structural with an explicit fuel argument; exhausting fuel yields
  the distinguished error `.fuelExhausted` (never reached at the fuel
  budget the entry point supplies, for the inputs in the theorems below).
-/

set_option maxHeartbeats 1000000

/-- A complex number in the finite fragment: the two double fields
`real`/`imag` of class `Complex`, idealized to exact rationals. -/
structure Cx where
  re : ℚ
  im : ℚ
  deriving Repr, DecidableEq

/-- Error kinds raised by the source (all are `new Error(message)` in JS;
the constructors carry the data interpolated into the message). -/
inductive CxErr where
  /-- `Cannot construct complex number from [${real}, ${imag}]` -/
  | invalidNumber : CxErr
  /-- `Cannot evaluate ${nom.toExponential()} / ${den}` — carries the
  numerator and denominator of the failing division step. -/
  | divisionError (nom den : Cx) : CxErr
  /-- `Invalid expression: ${[first, ...parts].join(" ")}` from
  `eval__read_expression` — carries `first :: parts`. -/
  | invalidExpression (parts : List String) : CxErr
  /-- `Invalid expression: ${[contents, ...parts].join(" ")}` from
  `eval__read_bracket_contents` (trailing tokens). -/
  | parseError (contents : Cx) (parts : List String) : CxErr
  /-- fuel ran out in the fueled embedding of the mutual recursion;
  does not correspond to a source error. -/
  | fuelExhausted : CxErr
  deriving Repr, DecidableEq

/-- `new Complex(x)` for a plain (finite) number `x`: sets `real = x`,
leaves `imag = 0` (constructor, first branch `typeof real === "number"`;
the final NaN check cannot fire on a rational). -/
def cx1 (x : ℚ) : Cx := ⟨x, 0⟩

/-- The two-argument constructor `new Complex(a, b)` restricted to finite
numeric arguments, exact-rational idealization.  Mirrors the source: if the
second argument is truthy (`b ≠ 0`), build `imag_part = new Complex(b)`
(which is `⟨b, 0⟩`) and then either add its imaginary part to `imag`
(purely-imaginary case) or subtract its imaginary part from `real` and add
its real part to `imag`.  The full `JsNum` version is `jsMk` below. -/
def mkC (a b : ℚ) : Cx :=
  if b ≠ 0 then
    let ip : Cx := ⟨b, 0⟩
    if ip.im ≠ 0 ∧ ip.re = 0 then ⟨a, 0 + ip.im⟩ else ⟨a - ip.im, 0 + ip.re⟩
  else ⟨a, 0⟩

namespace Cx

/-- `Complex.add(...numbers)`: starts from `new Complex()` = `⟨0, 0⟩` and
adds the components of each operand in sequence. -/
def add (numbers : List Cx) : Cx :=
  numbers.foldl (fun z c => ⟨z.re + c.re, z.im + c.im⟩) ⟨0, 0⟩

/-- `Complex.sub(Lvalue, ...Rvalues)`: copies `Lvalue` and subtracts the
components of each further operand in sequence. -/
def sub (L : Cx) (Rs : List Cx) : Cx :=
  Rs.foldl (fun z c => ⟨z.re - c.re, z.im - c.im⟩) L

/-- Accumulator loop of `Complex.mul`: `real = rr - ii`, `imag = ri + ir`. -/
def mulGo (re im : ℚ) : List Cx → ℚ × ℚ
  | [] => (re, im)
  | c :: rest => mulGo (re * c.re - im * c.im) (re * c.im + im * c.re) rest

/-- `Complex.mul(...numbers)`: folds from `real = 1, imag = 0` and finishes
with `new Complex(real, imag)`. -/
def mul (numbers : List Cx) : Cx :=
  let p := mulGo 1 0 numbers
  mkC p.1 p.2

/-- Division loop of `Complex.div`.  In exact rational arithmetic the
source's post-hoc test `isNaN(real) || isNaN(imag)` holds exactly when the
denominator magnitude `den = c*c + d*d` is zero (both quotients are then
`0/0`); the embedding tests `den = 0` directly and reports the numerator
and denominator of the failing step, as the source's error message does. -/
def divGo (a b : ℚ) : List Cx → Except CxErr (ℚ × ℚ)
  | [] => .ok (a, b)
  | n :: rest =>
    let c := n.re
    let d := n.im
    let den := c * c + d * d
    if den = 0 then .error (.divisionError ⟨a, b⟩ ⟨c, d⟩)
    else divGo ((a * c + b * d) / den) ((b * c - a * d) / den) rest

/-- `Complex.div(Lvalue, ...Rvalues)`; ends with `new Complex(real, imag)`. -/
def div (L : Cx) (Rs : List Cx) : Except CxErr Cx := do
  let p ← divGo L.re L.im Rs
  .ok (mkC p.1 p.2)

end Cx

/-- The `Math` builtins used by the source, with `ℚ` standing in for the
doubles they operate on.  These are environment-provided library functions,
not repository code, so they are kept abstract; every theorem below holds
for an arbitrary instance. -/
structure RealOps where
  /-- `Math.cos` -/
  cos : ℚ → ℚ
  /-- `Math.sin` -/
  sin : ℚ → ℚ
  /-- `Math.atan2 y x` -/
  atan2 : ℚ → ℚ → ℚ
  /-- `Math.log` (natural logarithm) -/
  log : ℚ → ℚ
  /-- `x ** 0.5` (used by the `abs` getter) -/
  sqrt : ℚ → ℚ
  /-- `Math.E ** x` -/
  epow : ℚ → ℚ
  /-- the constant `Math.E` -/
  E : ℚ

/-- A concrete `RealOps` instantiation used only to state closed
counterexample theorems; the corresponding general theorems quantify over
every `RealOps`.  `E` is the decimal value of the double `Math.E`. -/
def someOps : RealOps :=
  { cos := fun _ => 0
    sin := fun _ => 0
    atan2 := fun _ _ => 0
    log := fun _ => 0
    sqrt := fun _ => 0
    epow := fun _ => 0
    E := 2718281828459045 / 10 ^ 15 }

namespace Cx

/-- The `abs` getter: `(real² + imag²) ** 0.5`. -/
def absO (O : RealOps) (z : Cx) : ℚ := O.sqrt (z.re * z.re + z.im * z.im)

/-- The `angle` getter: `atan2(imag / (abs || 1), real / (abs || 1))`. -/
def angleO (O : RealOps) (z : Cx) : ℚ :=
  let a := absO O z
  let a' := if a = 0 then 1 else a
  O.atan2 (z.im / a') (z.re / a')

/-- `Complex.exp(...terms)`: multiply the terms into `c`, then return
`mul(Complex(cos c.imag, sin c.imag), Math.E ** c.real)`. -/
def cexp (O : RealOps) (terms : List Cx) : Cx :=
  let c := mul terms
  mul [mkC (O.cos c.im) (O.sin c.im), cx1 (O.epow c.re)]

/-- `Complex.log(...terms)`: multiply the terms into `c`, then return
`new Complex(Math.log(c.abs), c.angle)`. -/
def clog (O : RealOps) (terms : List Cx) : Cx :=
  let c := mul terms
  mkC (O.log (absO O c)) (angleO O c)

/-- `Complex.pow(root, exponent) = Complex.exp(Complex.mul(exponent, Complex.log(root)))`. -/
def cpow (O : RealOps) (root exponent : Cx) : Cx :=
  cexp O [mul [exponent, clog O [root]]]

end Cx

/-! ## Numeric rendering (the `toFixed` builtin, `niceround`, `toString`) -/

/-- Decimal digit characters of a natural number, most significant first
(`"0"` for zero).  Built on `Nat.digits` so that `Nat.ofDigits_digits`
gives the parsing inverse. -/
def natToChars (n : ℕ) : List Char :=
  if n = 0 then ['0'] else ((Nat.digits 10 n).map Nat.digitChar).reverse

/-- Fraction block of fixed-point rendering: the digits of `f` padded with
leading zeros to exactly `d` digits (assumes `f < 10 ^ d`). -/
def fracChars (f d : ℕ) : List Char :=
  ((Nat.digits 10 f ++ List.replicate (d - (Nat.digits 10 f).length) 0).map
      Nat.digitChar).reverse

/-- `x.toFixed(d)` for `x ≥ 0`: ECMAScript picks the integer `n` closest to
`x·10^d`, ties to the larger, i.e. `n = ⌊x·10^d + 1/2⌋`, and renders it
with `d` digits after the point (no point when `d = 0`). -/
def fixedPos (x : ℚ) (d : ℕ) : List Char :=
  let n := (⌊x * 10 ^ d + 1 / 2⌋).toNat
  if d = 0 then natToChars n
  else natToChars (n / 10 ^ d) ++ '.' :: fracChars (n % 10 ^ d) d

/-- `Number.prototype.toFixed`: negative numbers are rendered by negating
first and prefixing `'-'` (so a tiny negative renders as `-0.00…`),
exact-rational idealization of the double builtin. -/
def numToFixed (q : ℚ) (d : ℕ) : List Char :=
  if q < 0 then '-' :: fixedPos (-q) d else fixedPos q d

/-- The regex `fixed.replace(/\.?0+$/g, "")` of `niceround`: drop the
maximal run of trailing `'0'`s and a `'.'` immediately preceding it. -/
def trimZeros (s : List Char) : List Char :=
  let r := (s.reverse).dropWhile (· = '0')
  (if r.head? = some '.' then r.tail else r).reverse

/-- `niceround(real)`: `toFixed(12)`, then trim trailing fractional zeros
when a decimal point is present. -/
def niceround (q : ℚ) : List Char :=
  let fixed := numToFixed q 12
  if fixed.contains '.' then trimZeros fixed else fixed

namespace Cx

/-- `Complex.prototype.toString`: `niceround` both parts, drop the
imaginary part when it renders as `0j`/`-0j`, drop the real part when it
renders as `0`, and join with `+` exactly when `imag >= 0`. -/
def toStr (z : Cx) : List Char :=
  let real := niceround z.re
  let imag := niceround z.im ++ ['j']
  if imag ≠ ['0', 'j'] ∧ imag ≠ ['-', '0', 'j'] then
    if real ≠ ['0'] then
      if 0 ≤ z.im then real ++ '+' :: imag else real ++ imag
    else imag
  else real

/-- `Complex.prototype.toFixed(fractionDigits)`: note that the emptiness
test on the real part is on the *rendered string* (always nonempty), while
the imaginary part is tested as a number. -/
def toFix (z : Cx) (d : ℕ) : List Char :=
  let real := numToFixed z.re d
  let imag := if z.im ≠ 0 then numToFixed z.im d ++ ['j'] else []
  if imag ≠ [] then
    if real ≠ [] then
      if 0 ≤ z.im then real ++ '+' :: imag else real ++ imag
    else imag
  else real

/-- `Complex.prototype.toPrecision(precision)`, parameterized by the
scalar rendering builtin `Number.prototype.toPrecision` (environment
code, abstracted as `f`): both number tests are on the numeric fields. -/
def toPrec (f : ℚ → List Char) (z : Cx) : List Char :=
  if z.im ≠ 0 then
    if z.re ≠ 0 then
      f z.re ++ (if z.im < 0 then [] else ['+']) ++ f z.im ++ ['j']
    else f z.im ++ ['j']
  else f z.re

/-- `Complex.prototype.toExponential(fractionDigits)`.  When `imag` is
truthy the POLAR form ``render(abs) ++ "e^" ++ render(angle / Math.PI) ++
"jπ"`` is produced, where `render` maps the value `1` to the empty string
and otherwise applies the fractionDigits-dependent scalar rendering
(`Number(n.toFixed(fractionDigits))` or the plain stringification —
environment code, abstracted as `r`); when `imag` is falsy the scalar
builtin `Number.prototype.toExponential` (abstracted as `f`) renders the
real part alone.  `pi` is the constant `Math.PI`. -/
def toExpo (O : RealOps) (pi : ℚ) (f r : ℚ → List Char) (z : Cx) : List Char :=
  if z.im ≠ 0 then
    (if absO O z = 1 then [] else r (absO O z)) ++
      'e' :: '^' ::
        ((if angleO O z / pi = 1 then [] else r (angleO O z / pi)) ++ ['j', 'π'])
  else f z.re

end Cx

/-! ## `Number(string)` on tokens -/

/-- Numeric value of a (most-significant-first) digit-character list. -/
def parseDigits (cs : List Char) : ℕ :=
  cs.foldl (fun a c => 10 * a + (c.toNat - 48)) 0

/-- `Number(first)` restricted to the token alphabet the normalizer can
produce: an optional sign followed by `digits`, `digits.digits?` or
`.digits` (`"3."` is a valid JS numeric string, `"."` is not; the empty
string converts to `0`).  `none` models NaN.  Tokens never contain
whitespace mixed with other characters, so the whitespace trimming of the
builtin is omitted; hex/binary/`Infinity` forms cannot occur in a single
token. -/
def parseNumC : List Char → Option ℚ
  | [] => some 0
  | c :: cs =>
    let sgn : ℚ := if c = '-' then -1 else 1
    let cs' : List Char := if c = '-' ∨ c = '+' then cs else c :: cs
    let D := cs'.takeWhile Char.isDigit
    let r := cs'.dropWhile Char.isDigit
    if D ≠ [] then
      match r with
      | [] => some (sgn * parseDigits D)
      | '.' :: F =>
        if F.all Char.isDigit then
          some (sgn * (parseDigits D + parseDigits F / 10 ^ F.length))
        else none
      | _ => none
    else
      match r with
      | '.' :: F =>
        if F ≠ [] ∧ F.all Char.isDigit then
          some (sgn * (parseDigits F / 10 ^ F.length))
        else none
      | _ => none

/-- `Number(tok)` on a token. -/
def parseNum (tok : String) : Option ℚ := parseNumC tok.data

/-! ## Tokenizer / normalizer

The source normalizes with a chain of global regex replaces over the
character-interspersed string.  Each global replace `s.replace(re, rep)`
scans left to right: at each position it either matches (emits the
replacement and continues after the match) or advances one character.
`scanF` is that driver, parameterized by a matcher that returns the
replacement together with the remainder after the match; fuel equal to the
list length suffices because every match consumes at least one character. -/

/-- One global regex-replace pass, fueled. -/
def scanF (m : List Char → Option (List Char × List Char)) :
    Nat → List Char → List Char
  | 0, l => l
  | _ + 1, [] => []
  | f + 1, c :: r =>
    match m (c :: r) with
    | some (rep, rest) => rep ++ scanF m f rest
    | none => c :: scanF m f r

/-- A global replace pass with the standard fuel. -/
def scanRun (m : List Char → Option (List Char × List Char))
    (l : List Char) : List Char :=
  scanF m l.length l

/-- Matcher for a literal pattern: `s.replace(pat, rep)` with `pat` a fixed
string. -/
def litM (pat rep : List Char) (l : List Char) :
    Option (List Char × List Char) :=
  if pat ≠ [] ∧ pat.isPrefixOf l then some (rep, l.drop pat.length) else none

/-- Matcher for `/ +/g → " "`: a maximal run of spaces becomes one space. -/
def spaceM : List Char → Option (List Char × List Char)
  | ' ' :: r => some ([' '], r.dropWhile (· = ' '))
  | _ => none

/-- Matcher for `/(\d+)_(\d+)/g → "$1$2"`.  The pattern matches at a
position exactly when a maximal digit run is followed by `'_'` and a
digit (backtracking the greedy `\d+` cannot help, because the character
after a shorter prefix of the run is a digit, not `'_'`). -/
def digitM (l : List Char) : Option (List Char × List Char) :=
  match l with
  | c :: _ =>
    if c.isDigit then
      match l.dropWhile Char.isDigit with
      | '_' :: r2 =>
        match r2 with
        | c2 :: _ =>
          if c2.isDigit then
            some (l.takeWhile Char.isDigit ++ r2.takeWhile Char.isDigit,
              r2.dropWhile Char.isDigit)
          else none
        | [] => none
      | _ => none
    else none
  | [] => none

/-- Matcher for `/(\d+)_[\,\.]_(\d+)/g → "$1.$2"` (same greediness
analysis as `digitM`; the separator always rewrites to `'.'`). -/
def decM (l : List Char) : Option (List Char × List Char) :=
  match l with
  | c :: _ =>
    if c.isDigit then
      match l.dropWhile Char.isDigit with
      | '_' :: p :: '_' :: r2 =>
        if p = '.' ∨ p = ',' then
          match r2 with
          | c2 :: _ =>
            if c2.isDigit then
              some (l.takeWhile Char.isDigit ++ '.' :: r2.takeWhile Char.isDigit,
                r2.dropWhile Char.isDigit)
            else none
          | [] => none
        else none
      | _ => none
    else none
  | [] => none

/-- Matcher for `/e_((x_p)|(\^))/g → "exp"` (the alternation tries `x_p`
first, matching the regex engine's ordered choice). -/
def expM (l : List Char) : Option (List Char × List Char) :=
  if ['e', '_', 'x', '_', 'p'].isPrefixOf l then some ("exp".data, l.drop 5)
  else if ['e', '_', '^'].isPrefixOf l then some ("exp".data, l.drop 3)
  else none

/-- Matcher for `/l_((o_g)|(n))/g → "ln"`. -/
def lnM (l : List Char) : Option (List Char × List Char) :=
  if ['l', '_', 'o', '_', 'g'].isPrefixOf l then some ("ln".data, l.drop 5)
  else if ['l', '_', 'n'].isPrefixOf l then some ("ln".data, l.drop 3)
  else none

/-- The do-while loop around the digit-merge pass: repeat while the length
strictly decreases.  Fuel `length + 1` always suffices because each
shrinking iteration removes at least one character. -/
def dmLoop : Nat → List Char → List Char
  | 0, l => l
  | f + 1, l =>
    let l' := scanRun digitM l
    if l'.length < l.length then dmLoop f l' else l'

/-- `String(Math.PI)` = `"3.141592653589793"`. -/
def piChars : List Char := "3.141592653589793".data

/-- JS `String.prototype.trim` (modelled for the common whitespace
characters). -/
def jsTrim (l : List Char) : List Char :=
  let ws : Char → Bool := fun c => c = ' ' ∨ c = '\t' ∨ c = '\n' ∨ c = '\r'
  ((l.dropWhile ws).reverse.dropWhile ws).reverse

/-- `str.split("_")`, keeping empty pieces (they are filtered afterwards). -/
def splitU : List Char → List (List Char)
  | [] => [[]]
  | c :: r =>
    if c = '_' then [] :: splitU r
    else
      match splitU r with
      | piece :: rest => (c :: piece) :: rest
      | [] => [[c]]

/-- The full normalization pipeline of `Complex.eval`, steps in source
order:  trim, intersperse `'_'`, lowercase, collapse space runs, the
digit-merge do-while, decimal merge, `**`→`^`, `π` and `p_i` to the
decimal expansion of π, `i`→`j`, the four sign-pair folds, `exp`/`ln`
recognition, split on `'_'` and drop empty tokens. -/
def tokenize (s : String) : List String :=
  let t1 := List.intersperse '_' (jsTrim s.data)
  let t2 := t1.map Char.toLower
  let t3 := scanRun spaceM t2
  let t4 := dmLoop (t3.length + 1) t3
  let t5 := scanRun decM t4
  let t6 := scanRun (litM ['*', '_', '*'] ['^']) t5
  let t7 := scanRun (litM ['π'] piChars) t6
  let t8 := scanRun (litM ['p', '_', 'i'] piChars) t7
  let t9 := t8.map fun c => if c = 'i' then 'j' else c
  let t10 := scanRun (litM ['-', '_', '+'] ['-']) t9
  let t11 := scanRun (litM ['+', '_', '-'] ['-']) t10
  let t12 := scanRun (litM ['+', '_', '+'] ['+']) t11
  let t13 := scanRun (litM ['-', '_', '-'] ['+']) t12
  let t14 := scanRun expM t13
  let t15 := scanRun lnM t14
  ((splitU t15).filter (· ≠ [])).map fun cs => String.mk cs

/-! ## The recursive-descent parser -/

/-- `Complex.eval__part_is_end_of_expression(part)`; `none` is the
`undefined` read past the end of the array. -/
def isEndTok : Option String → Bool
  | none => true
  | some t =>
    t = "+" ∨ t = "-" ∨ t = "*" ∨ t = "/" ∨ t = "^" ∨ t = " " ∨ t = ")"

/-- Exponent of the scientific-notation suffix: `Number(sign ++ digits)`
for `sign ∈ {+,-}` and a nonempty all-digit token. -/
def sciExp (sgn dg : String) : ℤ :=
  if sgn = "-" then -(parseDigits dg.data : ℤ) else (parseDigits dg.data : ℤ)

mutual

/-- `Complex.eval__read_expression(parts)`. -/
def readExpr (O : RealOps) (fuel : Nat) (parts0 : List String) :
    Except CxErr (Cx × List String) :=
  if _h : fuel = 0 then .error .fuelExhausted
  else
    let f := fuel - 1
    let parts := parts0.dropWhile (· = " ")
    match parts with
    | [] => .ok (cx1 1, [])
    | first :: rest =>
      match parseNum first with
      | none =>
        if first = "exp" then do
          let (c, r) ← readExpr O f rest
          .ok (Cx.cexp O [c], r)
        else if first = "ln" then do
          let (c, r) ← readExpr O f rest
          .ok (Cx.clog O [c], r)
        else if first = "e" then
          if isEndTok rest.head? then .ok (cx1 O.E, rest)
          else do
            let (c, r) ← readExpr O f rest
            .ok (Cx.mul [cx1 O.E, c], r)
        else if first = "j" then
          if isEndTok rest.head? then .ok (⟨0, 1⟩, rest)
          else do
            let (c, r) ← readExpr O f rest
            .ok (Cx.mul [⟨0, 1⟩, c], r)
        else if first = "(" then do
          let (c, r) ← readBracket O f rest
          if isEndTok r.head? then .ok (c, r)
          else do
            let (c2, r2) ← readExpr O f r
            .ok (Cx.mul [c, c2], r2)
        else if first = "-" then do
          let (c0, r) ← readExpr O f rest
          let c := Cx.mul [c0, cx1 (-1)]
          if isEndTok r.head? then .ok (c, r)
          else do
            let (c2, r2) ← readExpr O f r
            .ok (Cx.mul [c, c2], r2)
        else .error (.invalidExpression (first :: rest))
      | some n =>
        -- scientific-notation lookahead:
        -- parts[0] = "e", parts[1] ∈ {+,-}, parts[2] matches /^\d+$/
        match rest with
        | sciE :: sgn :: dg :: r2 =>
          if sciE = "e" ∧ (sgn = "+" ∨ sgn = "-") ∧ dg ≠ "" ∧
              dg.data.all Char.isDigit then
            let num := cx1 (n * (10 : ℚ) ^ sciExp sgn dg)
            if isEndTok r2.head? then .ok (num, r2)
            else do
              let (c2, r3) ← readExpr O f r2
              .ok (Cx.mul [num, c2], r3)
          else
            let num := cx1 n
            if isEndTok rest.head? then .ok (num, rest)
            else do
              let (c2, r3) ← readExpr O f rest
              .ok (Cx.mul [num, c2], r3)
        | _ =>
          let num := cx1 n
          if isEndTok rest.head? then .ok (num, rest)
          else do
            let (c2, r3) ← readExpr O f rest
            .ok (Cx.mul [num, c2], r3)
  termination_by fuel
  decreasing_by all_goals omega

/-- `Complex.eval__read_exponentiation(parts)`. -/
def readPow (O : RealOps) (fuel : Nat) (parts0 : List String) :
    Except CxErr (Cx × List String) :=
  if _h : fuel = 0 then .error .fuelExhausted
  else
    let f := fuel - 1
    do
    let (left, r0) ← readExpr O f parts0
    let r := r0.dropWhile (· = " ")
    match r with
    | "^" :: r2 => do
      let (e, r3) ← readPow O f r2
      .ok (Cx.cpow O left e, r3)
    | _ => .ok (left, r)
  termination_by fuel
  decreasing_by all_goals omega

/-- `Complex.eval__read_multiplication(parts)`. -/
def readMul (O : RealOps) (fuel : Nat) (parts0 : List String) :
    Except CxErr (Cx × List String) :=
  if _h : fuel = 0 then .error .fuelExhausted
  else
    let f := fuel - 1
    do
    let (left, r0) ← readPow O f parts0
    let r := r0.dropWhile (· = " ")
    match r with
    | "*" :: r2 => do
      let (m, r3) ← readMul O f r2
      .ok (Cx.mul [left, m], r3)
    | "/" :: r2 => do
      let (d, r3) ← readPow O f r2
      let q ← Cx.div left [d]
      let (m, r4) ← readMul O f r3
      .ok (Cx.mul [q, m], r4)
    | _ =>
      if ¬ isEndTok r.head? then do
        let (x, r2) ← readExpr O f r
        let L := Cx.mul [left, x]
        readMul O f
          ("(" :: String.mk (niceround L.re) :: "+" ::
            String.mk (niceround L.im) :: ")" :: r2)
      else .ok (left, r)
  termination_by fuel
  decreasing_by all_goals omega

/-- `Complex.eval__read_addition(parts)`. -/
def readAdd (O : RealOps) (fuel : Nat) (parts0 : List String) :
    Except CxErr (Cx × List String) :=
  if _h : fuel = 0 then .error .fuelExhausted
  else
    let f := fuel - 1
    let p := parts0.dropWhile (· = " ")
    match p with
    | "+" :: r => readAdd O f r
    | "-" :: r => do
      let (x, r2) ← readAdd O f r
      .ok (Cx.sub ⟨0, 0⟩ [x], r2)
    | _ => do
      let (left, r0) ← readMul O f p
      let r := r0.dropWhile (· = " ")
      match r with
      | "+" :: r2 => do
        let (x, r3) ← readAdd O f r2
        .ok (Cx.add [left, x], r3)
      | "-" :: r2 => do
        let (right, r3) ← readMul O f r2
        if r3.head? = some "+" ∨ r3.head? = some "-" then
          readAdd O f (String.mk (Cx.toStr (Cx.sub left [right])) :: r3)
        else .ok (Cx.sub left [right], r3)
      | _ => .ok (left, r)
  termination_by fuel
  decreasing_by all_goals omega

/-- `Complex.eval__read_bracket_contents(parts)`.  Note the two success
exits: a leading `)` returns `1` *without consuming it*, and after the
addition-level parse both `)` (consumed) and end-of-sequence succeed. -/
def readBracket (O : RealOps) (fuel : Nat) (parts0 : List String) :
    Except CxErr (Cx × List String) :=
  if _h : fuel = 0 then .error .fuelExhausted
  else
    let f := fuel - 1
    let p := parts0.dropWhile (fun t => t = " " ∨ t = "+")
    match p with
    | [] => .ok (cx1 1, [])
    | ")" :: r => .ok (cx1 1, ")" :: r)
    | _ =>
      let p' := if p.head? = some "-" then "0" :: p else p
      do
        let (contents, r) ← readAdd O f p'
        match r with
        | [] => .ok (contents, [])
        | ")" :: r2 => .ok (contents, r2)
        | _ => .error (.parseError contents r)
  termination_by fuel
  decreasing_by all_goals omega

end

/-- `Complex.eval(num)` for a string argument: tokenize, then parse as
top-level bracket contents.  The fuel bound is generous: every recursive
call strictly decreases fuel, and the call depth needed is far below
`16·tokens + 64` for the inputs considered in the theorems. -/
def evalStr (O : RealOps) (s : String) : Except CxErr Cx := do
  let parts := tokenize s
  let (c, _) ← readBracket O (16 * parts.length + 64) parts
  .ok c

/-! ## The constructor over full JS number semantics

For claims about the constructor's NaN check the distinction between NaN
and the infinities matters, so here JS doubles are modelled with their
special values (`ℚ` for the finite fragment, no negative zero). -/

/-- A JS double: NaN, the two infinities, or a finite value. -/
inductive JsNum where
  | nan : JsNum
  | inf : JsNum
  | ninf : JsNum
  | fin (q : ℚ) : JsNum
  deriving Repr, DecidableEq

namespace JsNum

/-- IEEE addition on the special values (finite fragment exact). -/
def add : JsNum → JsNum → JsNum
  | nan, _ => nan
  | _, nan => nan
  | inf, ninf => nan
  | ninf, inf => nan
  | inf, _ => inf
  | _, inf => inf
  | ninf, _ => ninf
  | _, ninf => ninf
  | fin a, fin b => fin (a + b)

/-- IEEE negation. -/
def neg : JsNum → JsNum
  | nan => nan
  | inf => ninf
  | ninf => inf
  | fin a => fin (-a)

/-- IEEE subtraction, as `a + (-b)`. -/
def sub (a b : JsNum) : JsNum := add a (neg b)

/-- JS truthiness of a number: `0` and `NaN` are falsy (negative zero is
not modelled). -/
def truthy : JsNum → Bool
  | nan => false
  | fin q => q ≠ 0
  | _ => true

/-- `isFinite`. -/
def isFinite : JsNum → Bool
  | fin _ => true
  | _ => false

end JsNum

/-- A complex value whose fields are full JS doubles. -/
structure JsCx where
  re : JsNum
  im : JsNum
  deriving Repr, DecidableEq

/-- An argument passed to the `Complex` constructor: a number or another
`Complex` (the `bigint`/`string` branches convert to these and are not
modelled separately). -/
inductive CxArg where
  | num (n : JsNum) : CxArg
  | cpx (z : JsCx) : CxArg
  deriving Repr, DecidableEq

/-- The constructor's first phase: initialize `real`/`imag` from the first
argument (`undefined` leaves the field initializers `0`). -/
def initArg : Option CxArg → JsCx
  | none => ⟨.fin 0, .fin 0⟩
  | some (.num n) => ⟨n, .fin 0⟩
  | some (.cpx z) => z

/-- JS truthiness of a constructor argument (`if (imag)`): objects are
always truthy, numbers by `JsNum.truthy`. -/
def argTruthy : CxArg → Bool
  | .num n => n.truthy
  | .cpx _ => true

/-- The constructor's final check: `if (isNaN(this.real) || isNaN(this.imag))
throw new Error(...)`. -/
def jsCheck (z : JsCx) : Except CxErr JsCx :=
  if z.re = .nan ∨ z.im = .nan then .error .invalidNumber else .ok z

/-- `new Complex(v)` with one argument: initialize, then run the NaN
check. -/
def jsMk1 (v : Option CxArg) : Except CxErr JsCx :=
  jsCheck (initArg v)

/-- `new Complex(real, imag)`: the full constructor over JS numbers.
When the second argument is truthy, `imag_part = new Complex(imag)` is
built (which can itself throw), then either `imag_part.imag` is added to
`imag` (when `imag_part` is truthy-imaginary and falsy-real) or
`imag_part.imag` is subtracted from `real` and `imag_part.real` added to
`imag`; finally the NaN check runs. -/
def jsMk (real imag : Option CxArg) : Except CxErr JsCx := do
  let base := initArg real
  let z ←
    match imag with
    | none => pure base
    | some v =>
      if argTruthy v then do
        let ip ← jsMk1 (some v)
        if ip.im.truthy ∧ ¬ ip.re.truthy then
          pure ⟨base.re, base.im.add ip.im⟩
        else
          pure ⟨base.re.sub ip.im, base.im.add ip.re⟩
      else pure base
  jsCheck z

/-! ## The token alphabet of the specification (for the normalization
invariant claim) -/

/-- The "recognized alphabet" of the spec: digit runs, decimal literals,
the five operators, parentheses, the space marker, `j`, and the words
`exp`, `ln`, `e`. -/
def tokenInAlphabet (t : String) : Bool :=
  decide (t ∈ ["+", "-", "*", "/", "^", "(", ")", " ", "j", "exp", "ln", "e"]) ||
  (decide (t.data ≠ []) && t.data.all Char.isDigit) ||
  (match t.data.splitOn '.' with
   | [d, f] =>
     decide (d ≠ []) && decide (f ≠ []) && d.all Char.isDigit && f.all Char.isDigit
   | _ => false)


/-! ## Scaffolding for the round-trip theorem (C6)

Shape characterizations used to describe what the tokenizer does to a
rendered `toString` value, and the exact rounded value the round trip
recovers. -/

/-- The integer chosen by `toFixed(12)` for `x ≥ 0`: the closest integer
to `x·10^12`, ties to the larger. -/
def posr (x : ℚ) : ℕ := (⌊x * 10 ^ 12 + 1 / 2⌋).toNat

/-- The value recovered by rounding `q` to 12 decimal places, ECMAScript
style (negate, round the absolute value, re-negate). -/
def r12 (q : ℚ) : ℚ :=
  if q < 0 then -((posr (-q) : ℚ) / 10 ^ 12) else (posr q : ℚ) / 10 ^ 12

/-- The unsigned `toFixed(12)` digit string rendering the value
`n / 10^12`. -/
def fixedOfNat (n : ℕ) : List Char :=
  natToChars (n / 10 ^ 12) ++ '.' :: fracChars (n % 10 ^ 12) 12

/-- The unsigned `niceround` literal of `n` (trailing fractional zeros
trimmed). -/
def litOfNat (n : ℕ) : List Char := trimZeros (fixedOfNat n)

/-- Every `'_'` flanked by digits on both sides removed: the limit of the
digit-merge do-while loop. -/
def fullMerge : List Char → List Char
  | a :: '_' :: b :: rest =>
    if a.isDigit ∧ b.isDigit then a :: fullMerge (b :: rest)
    else a :: fullMerge ('_' :: b :: rest)
  | a :: rest => a :: fullMerge rest
  | [] => []

/-- Sign well-formedness: every `'+'`/`'-'` is immediately followed by
`'_'` and a digit, so no sign-pair fold can match. -/
def signOkB : List Char → Bool
  | [] => true
  | a :: rest =>
    (if a = '+' ∨ a = '-' then
       match rest with
       | '_' :: c :: _ => c.isDigit
       | _ => false
     else true) && signOkB rest

/-- Tokens joined by single `'_'` separators. -/
def tokJoin : List (List Char) → List Char
  | [] => []
  | [t] => t
  | t :: rest => t ++ '_' :: tokJoin rest

/-- A nonempty all-digit token. -/
def DigitsTok (t : List Char) : Prop := t ≠ [] ∧ ∀ c ∈ t, c.isDigit

/-- A numeric-literal token: a digit run, or a decimal literal
`digits.digits`. -/
def NumTok (t : List Char) : Prop :=
  DigitsTok t ∨ ∃ D F, DigitsTok D ∧ DigitsTok F ∧ t = D ++ '.' :: F

/-- Characters that can appear inside a rendered `toString` token: digits,
the decimal point, the two signs, and the imaginary unit. -/
def GoodChar (c : Char) : Prop :=
  c.isDigit = true ∨ c = '.' ∨ c = '+' ∨ c = '-' ∨ c = 'j'

/-- Well-formed token sequences produced by `toString`: numeric literals
separated by sign tokens (each sign is followed by a literal), with an
optional final `j`. -/
def OkSeq : List (List Char) → Prop
  | [] => True
  | [t] => NumTok t ∨ t = ['j']
  | t :: u :: rest =>
    ((NumTok t ∧ (u = ['+'] ∨ u = ['-'] ∨ u = ['j'])) ∨
      ((t = ['+'] ∨ t = ['-']) ∧ NumTok u)) ∧ OkSeq (u :: rest)

/-- The digit-merged (but not yet decimal-merged) form of a token inside
the interspersed string: a decimal literal keeps `'_'` around its point,
everything else is already merged to itself. -/
def mTok (t : List Char) : List Char :=
  match t.dropWhile Char.isDigit with
  | '.' :: F => t.takeWhile Char.isDigit ++ '_' :: '.' :: '_' :: F
  | _ => t

/-! # Theorems -/

/-! ## Helper lemmas -/

/-- `Int.toNat` on numeral literals (simp helper for evaluating the
rendering functions). -/
theorem int_toNat_lit (n : ℕ) : (OfNat.ofNat n : ℤ).toNat = OfNat.ofNat n := rfl

/-- The two-argument constructor on plain finite numbers produces exactly
`⟨a, b⟩` (both branches coincide because `new Complex(b)` has zero
imaginary part). -/
theorem mkC_eq (a b : ℚ) : mkC a b = ⟨a, b⟩ := by
  unfold mkC
  by_cases hb : b = 0 <;> simp [hb]

/-- `Complex.mul` of a single value is that value. -/
theorem mul_single (z : Cx) : Cx.mul [z] = z := by
  simp [Cx.mul, Cx.mulGo, mkC_eq]

/-- `Complex.mul` of two values, in components. -/
theorem mul_pair (a b : Cx) :
    Cx.mul [a, b] = ⟨a.re * b.re - a.im * b.im, a.re * b.im + a.im * b.re⟩ := by
  simp [Cx.mul, Cx.mulGo, mkC_eq]

/-- Tokenization of the inputs used in the concrete theorems (pure string
computation, no rational arithmetic, so `rfl` evaluates it). -/
theorem tokenize_lparen : tokenize "(" = ["("] := rfl

theorem tokenize_two_lparen : tokenize "((" = ["(", "("] := rfl

theorem tokenize_rparen : tokenize ")" = [")"] := rfl

theorem tokenize_632 : tokenize "6/2*3" = ["6", "/", "2", "*", "3"] := rfl

theorem tokenize_822 : tokenize "8/2/2" = ["8", "/", "2", "/", "2"] := rfl

theorem tokenize_62 : tokenize "6/2" = ["6", "/", "2"] := rfl

theorem tokenize_1e3 : tokenize "1e+3" = ["1", "e", "+", "3"] := rfl

theorem tokenize_q : tokenize "q" = ["q"] := rfl

/-! ## C10: identity elements of the variadic fold operations -/

/-- C10 (confirmed).  `Complex.add()` with no operands returns the zero
value `⟨0, 0⟩` and `Complex.mul()` with no operands returns the
multiplicative identity `⟨1, 0⟩` (the empty fold hits
`new Complex(1, 0)`, whose second argument is falsy). -/
theorem C10_identities : Cx.add [] = ⟨0, 0⟩ ∧ Cx.mul [] = ⟨1, 0⟩ := by
  refine ⟨rfl, ?_⟩
  simp [Cx.mul, Cx.mulGo, mkC]

/-! ## C9: scientific-notation literal -/

/-- C9 (confirmed).  For every choice of the `Math` builtins,
`eval("1e+3")` returns `real = 1000`, `imag = 0`: the literal `1` followed
by `e`, `+`, `3` is consumed as one scientific-notation literal scaled by
`10^3`, not parsed as an implicit multiplication by Euler's number. -/
theorem C9_scientific (O : RealOps) : evalStr O "1e+3" = .ok ⟨1000, 0⟩ := by
  simp [evalStr, tokenize_1e3, readBracket, readAdd, readMul, readPow, readExpr,
    parseNum, parseNumC, isEndTok, cx1, bind, Except.bind, parseDigits, sciExp,
    Cx.mul, Cx.mulGo, mkC]
  norm_num

/-! ## C2: unbalanced brackets -/

/-- C2 counterexample.  `eval("(")` does *not* fail with a parse error: it
returns the value `1` (so the claim fails at the very input it names).
`eval__read_bracket_contents` accepts end-of-sequence as a success exit —
necessarily, since it is also the top-level entry point for every
evaluation. -/
theorem C2_cex : evalStr someOps "(" = .ok ⟨1, 0⟩ := by
  simp [evalStr, tokenize_lparen, readBracket, readAdd, readMul, readPow,
    readExpr, parseNum, parseNumC, isEndTok, cx1, bind, Except.bind]

/-- C2 amended (proved).  Unbalanced brackets are accepted, not rejected:
for every choice of the `Math` builtins, `eval("(")`, `eval("((")` and
`eval(")")` all succeed with the value `1`.  `eval__read_bracket_contents`
returns successfully both when the next token is `)` (consuming it) and
when the token sequence is exhausted; its `ParseError` exit is reserved
for a pending token other than `)` after the addition level returns. -/
theorem C2_amended (O : RealOps) :
    evalStr O "(" = .ok ⟨1, 0⟩ ∧ evalStr O "((" = .ok ⟨1, 0⟩ ∧
      evalStr O ")" = .ok ⟨1, 0⟩ := by
  refine ⟨?_, ?_, ?_⟩ <;>
    simp [evalStr, tokenize_lparen, tokenize_two_lparen, tokenize_rparen,
      readBracket, readAdd, readMul, readPow, readExpr, parseNum, parseNumC,
      isEndTok, cx1, bind, Except.bind]

/-! ## C4: chained division and multiplication after division -/

/-- C4 counterexample.  `eval("6/2*3")` does not evaluate to `9`: it
throws `InvalidExpression` on the token `*`, because after `/` the parser
re-enters the multiplication level, whose leading
`eval__read_expression` call consumes the next token unconditionally and
cannot dispatch an operator token. -/
theorem C4_cex :
    evalStr someOps "6/2*3" = .error (.invalidExpression ["*", "3"]) := by
  simp [evalStr, tokenize_632, readBracket, readAdd, readMul, readPow, readExpr,
    parseNum, parseNumC, isEndTok, cx1, bind, Except.bind, Cx.div, Cx.divGo,
    parseDigits]

/-- C4 amended (proved).  At the multiplication grammar level, after `/`
the parser divides the left value by one exponentiation-level term and
then recursively parses a full multiplication level from the remaining
tokens; since that recursive parse begins with `eval__read_expression`,
which consumes the next token unconditionally and cannot dispatch an
operator, both `a/b*c` and `a/b/c` fail with `InvalidExpression` instead
of evaluating (for every choice of the `Math` builtins), while a sole
trailing divisor works: `eval("6/2") = 3`. -/
theorem C4_amended (O : RealOps) :
    evalStr O "6/2*3" = .error (.invalidExpression ["*", "3"]) ∧
      evalStr O "8/2/2" = .error (.invalidExpression ["/", "2"]) ∧
      evalStr O "6/2" = .ok ⟨3, 0⟩ := by
  refine ⟨?_, ?_, ?_⟩ <;>
    simp [evalStr, tokenize_632, tokenize_822, tokenize_62, readBracket,
      readAdd, readMul, readPow, readExpr, parseNum, parseNumC, isEndTok, cx1,
      bind, Except.bind, Cx.div, Cx.divGo, parseDigits, Cx.mul, Cx.mulGo, mkC]
  norm_num

/-! ## C7: the normalization alphabet -/

/-- C7 counterexample.  Normalization does not confine tokens to the
recognized alphabet: the input `"q"` tokenizes to the single token `"q"`,
which is outside the alphabet. -/
theorem C7_cex : tokenize "q" = ["q"] ∧ tokenInAlphabet "q" = false :=
  ⟨rfl, rfl⟩

/-- C7 amended (proved).  The normalization pipeline passes unrecognized
characters through unchanged (`tokenize "q" = ["q"]`, a token outside the
alphabet); such tokens are rejected only later, by the parser, with
`InvalidExpression`. -/
theorem C7_amended :
    tokenize "q" = ["q"] ∧ tokenInAlphabet "q" = false ∧
      ∀ O : RealOps, evalStr O "q" = .error (.invalidExpression ["q"]) := by
  refine ⟨rfl, rfl, fun O => ?_⟩
  simp [evalStr, tokenize_q, readBracket, readAdd, readMul, readPow, readExpr,
    parseNum, parseNumC, isEndTok, cx1, bind, Except.bind]

/-! ## C3: division by a zero complex number -/

/-- Every step of the division loop with a nonzero divisor succeeds (the
denominator `c·c + d·d` of a rational divisor vanishes only when both
components do). -/
theorem divGo_ok (rs : List Cx) :
    ∀ a b : ℚ, (∀ r ∈ rs, ¬(r.re = 0 ∧ r.im = 0)) →
      ∃ p, Cx.divGo a b rs = .ok p := by
  induction rs with
  | nil => exact fun a b _ => ⟨(a, b), rfl⟩
  | cons r rest ih =>
    intro a b h
    have hr := h r (List.mem_cons_self r rest)
    have hden : r.re * r.re + r.im * r.im ≠ 0 := by
      intro h0
      have h1 : r.re * r.re = 0 := by
        nlinarith [mul_self_nonneg r.re, mul_self_nonneg r.im]
      have h2 : r.im * r.im = 0 := by
        nlinarith [mul_self_nonneg r.re, mul_self_nonneg r.im]
      exact hr ⟨mul_self_eq_zero.mp h1, mul_self_eq_zero.mp h2⟩
    simp only [Cx.divGo, hden, if_neg, ite_false]
    exact ih _ _ fun x hx => h x (List.mem_cons_of_mem r hx)

/-- C3 (confirmed, in the exact-rational model where "non-finite result"
coincides with "zero divisor").  `Complex.div` fails exactly when a
division step divides by the zero complex value: a zero divisor raises
`DivisionError` carrying the numerator and denominator of the failing
step, a sequence of nonzero divisors always succeeds, and in particular
`div(1, 0)` raises `DivisionError` naming `1` and `0`. -/
theorem C3_divisionError :
    (∀ (L r : Cx) (rest : List Cx), r.re = 0 → r.im = 0 →
        Cx.div L (r :: rest) = .error (.divisionError L r)) ∧
      (∀ (L : Cx) (rs : List Cx), (∀ r ∈ rs, ¬(r.re = 0 ∧ r.im = 0)) →
        ∃ z, Cx.div L rs = .ok z) ∧
      Cx.div (cx1 1) [cx1 0] = .error (.divisionError (cx1 1) (cx1 0)) := by
  refine ⟨?_, ?_, ?_⟩
  · intro L r rest hre him
    have hden : r.re * r.re + r.im * r.im = 0 := by rw [hre, him]; ring
    have hr : (⟨r.re, r.im⟩ : Cx) = r := rfl
    simp [Cx.div, Cx.divGo, hden, hr, bind, Except.bind]
  · intro L rs h
    obtain ⟨p, hp⟩ := divGo_ok rs L.re L.im h
    exact ⟨mkC p.1 p.2, by simp [Cx.div, hp, bind, Except.bind]⟩
  · simp [Cx.div, Cx.divGo, cx1, bind, Except.bind]

/-- C3 witness: the nonzero-divisor direction applied at `div(1, 2)`. -/
theorem C3_witness : ∃ z, Cx.div (cx1 1) [cx1 2] = .ok z :=
  C3_divisionError.2.1 (cx1 1) [cx1 2] (by norm_num [cx1])

/-! ## C1: the constructor's finiteness check -/

/-- C1 counterexample.  `new Complex(Infinity)` does not throw: the
constructor checks only `isNaN`, so a `Complex` value with a non-finite
component exists. -/
theorem C1_cex :
    jsMk (some (.num .inf)) none = .ok ⟨.inf, .fin 0⟩ ∧
      JsNum.isFinite .inf = false := by
  constructor
  · simp [jsMk, jsMk1, jsCheck, initArg, bind, Except.bind, pure, Except.pure]
  · rfl

/-- The NaN check lets only NaN-free values through. -/
theorem jsCheck_ok {w z : JsCx} (h : jsCheck w = .ok z) :
    z.re ≠ .nan ∧ z.im ≠ .nan := by
  unfold jsCheck at h
  split at h
  · exact Except.noConfusion h
  · rename_i hnan
    push_neg at hnan
    cases h
    exact hnan

/-- C1 amended (proved).  The constructor throws `InvalidNumber` exactly
on NaN, not on every non-finite value: whenever construction succeeds,
neither component is NaN — but components may be infinite, as the
counterexample `new Complex(Infinity)` shows. -/
theorem C1_amended (r i : Option CxArg) (z : JsCx) (h : jsMk r i = .ok z) :
    z.re ≠ .nan ∧ z.im ≠ .nan := by
  unfold jsMk at h
  simp only [bind, Except.bind, pure, Except.pure] at h
  repeat' split at h
  all_goals
    first
      | exact Except.noConfusion h
      | exact jsCheck_ok h

/-- C1 witness: the amended theorem applied to `new Complex(3)`. -/
theorem C1_witness :
    (⟨.fin 3, .fin 0⟩ : JsCx).re ≠ .nan ∧ (⟨.fin 3, .fin 0⟩ : JsCx).im ≠ .nan :=
  C1_amended (some (.num (.fin 3))) none ⟨.fin 3, .fin 0⟩
    (by simp [jsMk, jsMk1, jsCheck, initArg, bind, Except.bind, pure, Except.pure])

/-! ## C5: the constructor's second argument -/

/-- C5 counterexample.  For the second argument `new Complex(2, 0)` (real
part `2`, not purely imaginary), the claim predicts
`real = 0 - 2, imag = 0 + 0`; the code instead subtracts the *imaginary*
part from `real` and adds the *real* part to `imag`, giving `⟨0, 2⟩`. -/
theorem C5_cex :
    jsMk (some (.num (.fin 0))) (some (.cpx ⟨.fin 2, .fin 0⟩)) =
        .ok ⟨.fin 0, .fin 2⟩ ∧
      (Except.ok (⟨.fin 0, .fin 2⟩ : JsCx) : Except CxErr JsCx) ≠
        .ok ⟨.fin (0 - 2), .fin (0 + 0)⟩ := by
  constructor
  · simp [jsMk, jsMk1, jsCheck, initArg, argTruthy, JsNum.truthy, JsNum.add,
      JsNum.sub, JsNum.neg, bind, Except.bind, pure, Except.pure]
  · intro h
    simp only [Except.ok.injEq, JsCx.mk.injEq, JsNum.fin.injEq] at h
    norm_num at h

/-- C5 amended (proved).  With a second argument `w`: when `w` is purely
imaginary (`imag` truthy and `real` falsy) its imaginary part is added to
`imag`; otherwise its *imaginary* part is subtracted from `real` and its
*real* part is added to `imag` (the claim had the two roles swapped).
The special case `new Complex(a, b)` for plain numbers `a`, `b` does give
`⟨a, b⟩`, because `new Complex(b)` has zero imaginary part. -/
theorem C5_amended :
    (∀ a x y : ℚ,
        jsMk (some (.num (.fin a))) (some (.cpx ⟨.fin x, .fin y⟩)) =
          .ok (if y ≠ 0 ∧ x = 0 then ⟨.fin a, .fin (0 + y)⟩
               else ⟨.fin (a - y), .fin (0 + x)⟩)) ∧
      ∀ a b : ℚ,
        jsMk (some (.num (.fin a))) (some (.num (.fin b))) = .ok ⟨.fin a, .fin b⟩ := by
  constructor
  · intro a x y
    by_cases hy : y = 0 <;> by_cases hx : x = 0 <;>
      simp [jsMk, jsMk1, jsCheck, initArg, argTruthy, JsNum.truthy, JsNum.add,
        JsNum.sub, JsNum.neg, bind, Except.bind, pure, Except.pure, hy, hx,
        ← sub_eq_add_neg]
  · intro a b
    by_cases hb : b = 0 <;>
      simp [jsMk, jsMk1, jsCheck, initArg, argTruthy, JsNum.truthy, JsNum.add,
        JsNum.sub, JsNum.neg, bind, Except.bind, pure, Except.pure, hb,
        ← sub_eq_add_neg]

/-! ## C8: zero-part omission in the rendering forms -/

/-- Digit strings of naturals are never empty. -/
theorem natToChars_ne_nil (n : ℕ) : natToChars n ≠ [] := by
  unfold natToChars
  split
  · simp
  · rename_i h
    simp [Nat.digits_ne_nil_iff_ne_zero, h]

/-- The fixed-point rendering of a number is never the empty string —
which is why `toFixed` never omits the real part. -/
theorem numToFixed_ne_nil (q : ℚ) (d : ℕ) : numToFixed q d ≠ [] := by
  unfold numToFixed fixedPos
  split
  · simp
  · split
    · exact natToChars_ne_nil _
    · simp [natToChars_ne_nil]

/-- `niceround 0` renders as `"0"`. -/
theorem niceround_zero : niceround 0 = ['0'] := by
  simp [niceround, numToFixed, fixedPos, natToChars, fracChars, trimZeros]
  norm_num
  decide

/-- C8 counterexample.  `Complex(0, 2).toFixed(0)` renders `"0+2j"`:
the real part is *not* omitted although it is exactly zero, because the
omission test is on the rendered string, which is never empty. -/
theorem C8_cex :
    String.mk (Cx.toFix ⟨0, 2⟩ 0) = "0+2j" ∧ ("0+2j" : String) ≠ "2j" := by
  constructor
  · simp [Cx.toFix, numToFixed, fixedPos, natToChars, fracChars]
    norm_num
    simp [int_toNat_lit, Nat.digitChar]
  · decide

/-- C8 amended (proved).  `toString` and `toPrecision` omit a zero part
(`toString` deciding by the *rounded rendering*, so only when the other
part does not also render as zero), and in every form that renders both
parts the joining sign follows the imaginary part's sign: `+` when
`imag ≥ 0`, otherwise the `-` of the imaginary part's own rendering
(`numToFixed` of a negative starts with `-`).  `toFixed` omits a zero
imaginary part but never the real part, because its emptiness test is on
the rendered real string, which is always nonempty.  `toExponential`
omits a zero imaginary part, rendering the real part alone through the
scalar builtin; with a nonzero imaginary part it departs from the
claimed cartesian format altogether: it renders the POLAR form
`abs e^(angle/π) jπ`, so the real part is never rendered on its own
(the output does not depend on the scalar real-part renderer at all)
and no joining sign between cartesian parts exists. -/
theorem C8_amended :
    (∀ (z : Cx) (d : ℕ), z.im = 0 → Cx.toFix z d = numToFixed z.re d) ∧
      (∀ (z : Cx) (d : ℕ), z.im ≠ 0 →
        Cx.toFix z d =
          numToFixed z.re d ++
            (if 0 ≤ z.im then '+' :: (numToFixed z.im d ++ ['j'])
             else numToFixed z.im d ++ ['j'])) ∧
      (∀ (q : ℚ) (d : ℕ), q < 0 → (numToFixed q d).head? = some '-') ∧
      (∀ z : Cx, z.im = 0 → Cx.toStr z = niceround z.re) ∧
      (∀ z : Cx, z.re = 0 → niceround z.im ≠ ['0'] → niceround z.im ≠ ['-', '0'] →
        Cx.toStr z = niceround z.im ++ ['j']) ∧
      (∀ (f : ℚ → List Char) (z : Cx), z.im = 0 → Cx.toPrec f z = f z.re) ∧
      (∀ (f : ℚ → List Char) (z : Cx), z.re = 0 → z.im ≠ 0 →
        Cx.toPrec f z = f z.im ++ ['j']) ∧
      (∀ (f : ℚ → List Char) (z : Cx), z.re ≠ 0 → z.im ≠ 0 →
        Cx.toPrec f z =
          f z.re ++ (if z.im < 0 then [] else ['+']) ++ f z.im ++ ['j']) ∧
      (∀ (O : RealOps) (p : ℚ) (f r : ℚ → List Char) (z : Cx), z.im = 0 →
        Cx.toExpo O p f r z = f z.re) ∧
      (∀ (O : RealOps) (p : ℚ) (f r : ℚ → List Char) (z : Cx), z.im ≠ 0 →
        Cx.toExpo O p f r z =
          (if Cx.absO O z = 1 then [] else r (Cx.absO O z)) ++
            'e' :: '^' ::
              ((if Cx.angleO O z / p = 1 then [] else r (Cx.angleO O z / p)) ++
                ['j', 'π'])) ∧
      (∀ (O : RealOps) (p : ℚ) (f g r : ℚ → List Char) (z : Cx), z.im ≠ 0 →
        Cx.toExpo O p f r z = Cx.toExpo O p g r z) := by
  refine ⟨?_, ?_, ?_, ?_, ?_, ?_, ?_, ?_, ?_, ?_, ?_⟩
  · intro z d h
    simp [Cx.toFix, h]
  · intro z d h
    simp only [Cx.toFix, h, ne_eq, not_false_eq_true, if_true, ite_not]
    rw [if_neg (by simp), if_neg (numToFixed_ne_nil _ _)]
    split <;> simp
  · intro q d h
    simp [numToFixed, h]
  · intro z h
    simp [Cx.toStr, h, niceround_zero]
  · intro z h h0 hm0
    have h1 : niceround z.im ++ ['j'] ≠ ['0', 'j'] := by
      intro hc
      exact h0 ((List.append_left_inj ['j']).mp
        (show niceround z.im ++ ['j'] = ['0'] ++ ['j'] from hc))
    have h2 : niceround z.im ++ ['j'] ≠ ['-', '0', 'j'] := by
      intro hc
      exact hm0 ((List.append_left_inj ['j']).mp
        (show niceround z.im ++ ['j'] = ['-', '0'] ++ ['j'] from hc))
    simp [Cx.toStr, h, niceround_zero, h1, h2]
  · intro f z h
    simp [Cx.toPrec, h]
  · intro f z h h2
    simp [Cx.toPrec, h, h2]
  · intro f z h h2
    simp [Cx.toPrec, h, h2]
  · intro O p f r z h
    simp [Cx.toExpo, h]
  · intro O p f r z h
    simp [Cx.toExpo, h]
  · intro O p f g r z h
    simp [Cx.toExpo, h]

/-- C8 witness: `toFixed` with zero imaginary part at `Complex(5, 0)`. -/
theorem C8_witness : Cx.toFix ⟨5, 0⟩ 0 = numToFixed 5 0 :=
  C8_amended.1 ⟨5, 0⟩ 0 rfl

/-! ## Generic facts about the regex-replace driver -/

/-- A matcher whose matches always consume at least one character. -/
def Consuming (m : List Char → Option (List Char × List Char)) : Prop :=
  ∀ l rep rest, m l = some (rep, rest) → rest.length < l.length

theorem scanF_nil (m : List Char → Option (List Char × List Char)) (f : Nat) :
    scanF m f [] = [] := by
  cases f <;> rfl

/-- With enough fuel, the driver's result does not depend on the fuel. -/
theorem scanF_stable {m : List Char → Option (List Char × List Char)}
    (hm : Consuming m) :
    ∀ (f : Nat) (l : List Char), l.length ≤ f → scanF m f l = scanRun m l := by
  intro f
  induction f using Nat.strong_induction_on with
  | _ f ih =>
    intro l hf
    match f, l with
    | f, [] => rw [scanF_nil, scanRun, scanF_nil]
    | f + 1, c :: r =>
      simp only [List.length_cons] at hf
      rcases hmc : m (c :: r) with - | ⟨rep, rest⟩
      · have key : ∀ g, r.length ≤ g → scanF m (g + 1) (c :: r) = c :: scanF m g r := by
          intro g hg
          simp [scanF, hmc]
        rw [key f (by omega), scanRun, List.length_cons, key r.length (le_refl _)]
        rw [ih f (by omega) r (by omega), ih r.length (by omega) r (le_refl _)]
      · have hlt := hm _ _ _ hmc
        simp only [List.length_cons] at hlt
        have key : ∀ g, scanF m (g + 1) (c :: r) = rep ++ scanF m g rest := by
          intro g
          simp [scanF, hmc]
        rw [key f, scanRun, List.length_cons, key r.length]
        rw [ih f (by omega) rest (by omega),
          ih r.length (by omega) rest (by omega)]

/-- Step lemma: no match at the head. -/
theorem scanRun_cons_none {m : List Char → Option (List Char × List Char)}
    (hm : Consuming m) {c : Char} {r : List Char} (h : m (c :: r) = none) :
    scanRun m (c :: r) = c :: scanRun m r := by
  rw [scanRun, List.length_cons]
  simp only [scanF, h]
  rw [scanF_stable hm r.length r (le_refl _)]

/-- Step lemma: a match at the head. -/
theorem scanRun_cons_some {m : List Char → Option (List Char × List Char)}
    (hm : Consuming m) {c : Char} {r rep rest : List Char}
    (h : m (c :: r) = some (rep, rest)) :
    scanRun m (c :: r) = rep ++ scanRun m rest := by
  have hlt := hm _ _ _ h
  simp only [List.length_cons] at hlt
  rw [scanRun, List.length_cons]
  simp only [scanF, h]
  rw [scanF_stable hm r.length rest (by omega)]

theorem scanRun_nil (m : List Char → Option (List Char × List Char)) :
    scanRun m [] = [] := rfl

/-- Helper: after a successful head run, dropping a further tail run stays
strictly inside the original list. -/
theorem dropWhile_tail_lt (p : Char → Bool) (l r : List Char) (a : Char)
    (h : l.dropWhile p = a :: r) : (r.dropWhile p).length < l.length := by
  have h1 : (l.takeWhile p).length + (l.dropWhile p).length = l.length := by
    rw [← List.length_append, List.takeWhile_append_dropWhile]
  have h2 := (List.dropWhile_suffix (l := r) p).length_le
  rw [h] at h1
  simp only [List.length_cons] at h1
  omega

/-- All the matchers of the normalization pipeline consume at least one
character per match. -/
theorem consuming_litM (pat rep : List Char) : Consuming (litM pat rep) := by
  intro l rp rest h
  unfold litM at h
  split at h
  · rename_i hc
    cases h
    have hlen := (List.isPrefixOf_iff_prefix.mp hc.2).length_le
    have hpos : 0 < pat.length := List.length_pos.mpr hc.1
    rw [List.length_drop]
    omega
  · exact Option.noConfusion h

theorem consuming_spaceM : Consuming spaceM := by
  intro l rp rest h
  unfold spaceM at h
  split at h
  · rename_i r
    cases h
    have := (List.dropWhile_suffix (l := r) (fun c => decide (c = ' '))).length_le
    simp only [List.length_cons]
    omega
  · exact Option.noConfusion h

theorem consuming_digitM : Consuming digitM := by
  intro l rp rest h
  cases l with
  | nil => exact Option.noConfusion h
  | cons c cs =>
    unfold digitM at h
    repeat' split at h
    all_goals try exact Option.noConfusion h
    cases h
    exact dropWhile_tail_lt Char.isDigit (c :: cs) _ '_' (by assumption)

/-- Variant of `dropWhile_tail_lt` for the three-character separator of
the decimal-merge pattern. -/
theorem dropWhile_tail3_lt (p : Char → Bool) (l r : List Char) (a b c0 : Char)
    (h : l.dropWhile p = a :: b :: c0 :: r) : (r.dropWhile p).length < l.length := by
  have h1 : (l.takeWhile p).length + (l.dropWhile p).length = l.length := by
    rw [← List.length_append, List.takeWhile_append_dropWhile]
  have h2 := (List.dropWhile_suffix (l := r) p).length_le
  rw [h] at h1
  simp only [List.length_cons] at h1
  omega

theorem consuming_decM : Consuming decM := by
  intro l rp rest h
  cases l with
  | nil => exact Option.noConfusion h
  | cons c cs =>
    unfold decM at h
    repeat' split at h
    all_goals try exact Option.noConfusion h
    cases h
    exact dropWhile_tail3_lt Char.isDigit (c :: cs) _ '_' _ '_' (by assumption)

theorem consuming_expM : Consuming expM := by
  intro l rp rest h
  unfold expM at h
  split at h
  · rename_i hc
    cases h
    have := (List.isPrefixOf_iff_prefix.mp hc).length_le
    rw [List.length_drop]
    simp at this
    omega
  · split at h
    · rename_i hc
      cases h
      have := (List.isPrefixOf_iff_prefix.mp hc).length_le
      rw [List.length_drop]
      simp at this
      omega
    · exact Option.noConfusion h

theorem consuming_lnM : Consuming lnM := by
  intro l rp rest h
  unfold lnM at h
  split at h
  · rename_i hc
    cases h
    have := (List.isPrefixOf_iff_prefix.mp hc).length_le
    rw [List.length_drop]
    simp at this
    omega
  · split at h
    · rename_i hc
      cases h
      have := (List.isPrefixOf_iff_prefix.mp hc).length_le
      rw [List.length_drop]
      simp at this
      omega
    · exact Option.noConfusion h

/-! ## Identity behaviour of passes that find nothing to rewrite -/

/-- If the matcher rejects every suffix, the pass is the identity. -/
theorem scanRun_id_of_none {m : List Char → Option (List Char × List Char)}
    (hm : Consuming m) :
    ∀ l : List Char, (∀ c r, (c :: r) <:+ l → m (c :: r) = none) →
      scanRun m l = l := by
  intro l
  induction l with
  | nil => exact fun _ => rfl
  | cons c r ih =>
    intro h
    rw [scanRun_cons_none hm (h c r (List.suffix_refl _))]
    rw [ih fun c' r' hs => h c' r' (hs.trans (List.suffix_cons c r))]

theorem litM_none_head {pat rep : List Char} {h0 c : Char} {r : List Char}
    (hp : pat.head? = some h0) (hc : c ≠ h0) : litM pat rep (c :: r) = none := by
  unfold litM
  rw [if_neg]
  rintro ⟨hne, hpre⟩
  match pat, hp with
  | h0 :: pat', rfl =>
    have := (List.cons_prefix_cons.mp (List.isPrefixOf_iff_prefix.mp hpre)).1
    exact hc this.symm

/-- A literal pass whose pattern starts with a character absent from the
string is the identity. -/
theorem scanRun_litM_id {pat rep l : List Char} {h0 : Char}
    (hp : pat.head? = some h0) (h : h0 ∉ l) :
    scanRun (litM pat rep) l = l := by
  refine scanRun_id_of_none (consuming_litM pat rep) l fun c r hs => ?_
  exact litM_none_head hp fun hc => h (hs.mem (by simp [hc]))

/-- The space-collapsing pass is the identity on space-free strings. -/
theorem scanRun_spaceM_id {l : List Char} (h : ' ' ∉ l) :
    scanRun spaceM l = l := by
  refine scanRun_id_of_none consuming_spaceM l fun c r hs => ?_
  have hc : c ≠ ' ' := fun hc => h (hs.mem (by simp [hc]))
  unfold spaceM
  split
  · rename_i heq
    cases heq
    exact absurd rfl hc
  · rfl

/-- The `exp`-recognition pass is the identity on `'e'`-free strings. -/
theorem scanRun_expM_id {l : List Char} (h : 'e' ∉ l) :
    scanRun expM l = l := by
  refine scanRun_id_of_none consuming_expM l fun c r hs => ?_
  have hc : c ≠ 'e' := fun hc => h (hs.mem (by simp [hc]))
  unfold expM
  rw [if_neg, if_neg]
  · intro hpre
    exact hc ((List.cons_prefix_cons.mp (List.isPrefixOf_iff_prefix.mp hpre)).1).symm
  · intro hpre
    exact hc ((List.cons_prefix_cons.mp (List.isPrefixOf_iff_prefix.mp hpre)).1).symm

/-- The `ln`-recognition pass is the identity on `'l'`-free strings. -/
theorem scanRun_lnM_id {l : List Char} (h : 'l' ∉ l) :
    scanRun lnM l = l := by
  refine scanRun_id_of_none consuming_lnM l fun c r hs => ?_
  have hc : c ≠ 'l' := fun hc => h (hs.mem (by simp [hc]))
  unfold lnM
  rw [if_neg, if_neg]
  · intro hpre
    exact hc ((List.cons_prefix_cons.mp (List.isPrefixOf_iff_prefix.mp hpre)).1).symm
  · intro hpre
    exact hc ((List.cons_prefix_cons.mp (List.isPrefixOf_iff_prefix.mp hpre)).1).symm

/-- `signOkB` restricts to tails. -/
theorem signOkB_tail {a : Char} {r : List Char} (h : signOkB (a :: r) = true) :
    signOkB r = true := by
  unfold signOkB at h
  simp only [Bool.and_eq_true] at h
  exact h.2

/-- `signOkB` restricts to suffixes. -/
theorem signOkB_suffix {l s : List Char} (hs : s <:+ l)
    (h : signOkB l = true) : signOkB s = true := by
  induction l with
  | nil =>
    rw [List.suffix_nil.mp hs]
    exact h
  | cons a r ih =>
    rcases List.suffix_cons_iff.mp hs with rfl | hs'
    · exact h
    · exact ih hs' (signOkB_tail h)

/-- A sign-pair fold is the identity on sign-well-formed strings. -/
theorem scanRun_signfold_id {s1 s2 : Char} {rep l : List Char}
    (hs1 : s1 = '+' ∨ s1 = '-') (hs2 : s2.isDigit = false)
    (h : signOkB l = true) :
    scanRun (litM [s1, '_', s2] rep) l = l := by
  refine scanRun_id_of_none (consuming_litM _ rep) l fun c r hsuf => ?_
  have hok := signOkB_suffix hsuf h
  unfold litM
  rw [if_neg]
  rintro ⟨-, hpre⟩
  rw [List.isPrefixOf_iff_prefix] at hpre
  obtain ⟨t, ht⟩ := hpre
  simp only [List.cons_append, List.nil_append] at ht
  cases ht
  unfold signOkB at hok
  rw [if_pos hs1] at hok
  simp only [Bool.and_eq_true] at hok
  exact absurd hok.1 (by simp [hs2])

/-- Pointwise-fixed maps are the identity. -/
theorem map_id_of {f : Char → Char} {l : List Char} (h : ∀ c ∈ l, f c = c) :
    l.map f = l := by
  induction l with
  | nil => rfl
  | cons c r ih => simp [h c (by simp), ih fun c' hc' => h c' (by simp [hc'])]

/-! ## The digit-merge loop computes `fullMerge` -/

theorem fm_merge {c b : Char} (hc : c.isDigit = true) (hb : b.isDigit = true)
    (Y : List Char) : fullMerge (c :: '_' :: b :: Y) = c :: fullMerge (b :: Y) := by
  show (if c.isDigit ∧ b.isDigit then c :: fullMerge (b :: Y)
        else c :: fullMerge ('_' :: b :: Y)) = _
  rw [if_pos ⟨hc, hb⟩]

/-- Cons distributes over `fullMerge` when no merge happens at the head. -/
theorem fm_cons {c : Char} {X : List Char}
    (h : ¬(c.isDigit = true ∧ ∃ b Y, X = '_' :: b :: Y ∧ b.isDigit = true)) :
    fullMerge (c :: X) = c :: fullMerge X := by
  match X with
  | [] => rfl
  | [x] =>
    rw [fullMerge]
    intro b r hbr
    cases hbr
  | x :: y :: Y =>
    by_cases hx : x = '_'
    · subst hx
      show (if c.isDigit ∧ y.isDigit then c :: fullMerge (y :: Y)
            else c :: fullMerge ('_' :: y :: Y)) = _
      rw [if_neg]
      rintro ⟨hc, hb⟩
      exact h ⟨hc, y, Y, rfl, hb⟩
    · rw [fullMerge]
      intro b r hbr
      cases hbr
      exact hx rfl

/-- `fullMerge` passes over a digit run whose right boundary cannot merge. -/
theorem fm_digits_nomerge {D R : List Char} (hD : ∀ c ∈ D, c.isDigit = true)
    (hR : ¬∃ b Y, R = '_' :: b :: Y ∧ b.isDigit = true) :
    fullMerge (D ++ R) = D ++ fullMerge R := by
  induction D with
  | nil => rfl
  | cons d D' ih =>
    match D' with
    | [] =>
      simp only [List.nil_append, List.cons_append]
      rw [fm_cons fun hcon => hR hcon.2]
    | d2 :: D'' =>
      rw [List.cons_append]
      rw [fm_cons ?side]
      case side =>
        rintro ⟨-, b, Y, hshape, -⟩
        rw [List.cons_append] at hshape
        injection hshape with h1 _
        have hd2 := hD d2 (by simp)
        rw [h1] at hd2
        exact absurd hd2 (by decide)
      rw [ih fun c hc => hD c (List.mem_cons_of_mem d hc)]
      rfl

/-- `fullMerge` merges a nonempty digit run into a following digit across
the separator. -/
theorem fm_digits_merge {D : List Char} {b : Char} {Y : List Char}
    (hne : D ≠ []) (hD : ∀ c ∈ D, c.isDigit = true) (hb : b.isDigit = true) :
    fullMerge (D ++ '_' :: b :: Y) = D ++ fullMerge (b :: Y) := by
  induction D with
  | nil => exact absurd rfl hne
  | cons d D' ih =>
    match D' with
    | [] =>
      simp only [List.nil_append, List.cons_append]
      exact fm_merge (hD d (by simp)) hb Y
    | d2 :: D'' =>
      rw [List.cons_append]
      rw [fm_cons ?side2]
      case side2 =>
        rintro ⟨-, b', Y', hshape, -⟩
        rw [List.cons_append] at hshape
        injection hshape with h1 _
        have hd2 := hD d2 (by simp)
        rw [h1] at hd2
        exact absurd hd2 (by decide)
      rw [ih (by simp) fun c hc => hD c (List.mem_cons_of_mem d hc)]
      rfl

/-- Shape of a successful digit-merge match. -/
theorem digitM_some {l rep rest : List Char}
    (h : digitM l = some (rep, rest)) :
    ∃ D1 D2, D1 ≠ [] ∧ D2 ≠ [] ∧ (∀ c ∈ D1, c.isDigit = true) ∧
      (∀ c ∈ D2, c.isDigit = true) ∧ l = D1 ++ '_' :: (D2 ++ rest) ∧
      rep = D1 ++ D2 ∧ (∀ c r2, rest = c :: r2 → c.isDigit = false) := by
  cases l with
  | nil => exact Option.noConfusion h
  | cons c cs =>
    unfold digitM at h
    repeat' split at h
    all_goals try exact Option.noConfusion h
    cases h
    rename_i heq1 h1 x r2 c2 tail2 heq2 h2
    injection heq1 with hca hcs
    rw [← hca] at h1
    refine ⟨(c :: cs).takeWhile Char.isDigit, (c2 :: tail2).takeWhile Char.isDigit,
      ?_, ?_, ?_, ?_, ?_, rfl, ?_⟩
    · simp [List.takeWhile_cons, h1]
    · simp [List.takeWhile_cons, h2]
    · exact fun a ha => List.mem_takeWhile_imp ha
    · exact fun a ha => List.mem_takeWhile_imp ha
    · conv_lhs => rw [← List.takeWhile_append_dropWhile (p := Char.isDigit) (l := c :: cs)]
      rw [heq2, List.takeWhile_append_dropWhile]
    · intro a r2' hr2
      have := List.head?_dropWhile_not Char.isDigit (c2 :: tail2)
      rw [hr2] at this
      simpa using this

/-- The digit-merge pass preserves the first character. -/
theorem scanRun_digitM_head : ∀ l : List Char,
    (scanRun digitM l).head? = l.head? := by
  intro l
  match l with
  | [] => rfl
  | c :: r =>
    rcases hmc : digitM (c :: r) with - | ⟨rep, rest⟩
    · rw [scanRun_cons_none consuming_digitM hmc]
      rfl
    · rw [scanRun_cons_some consuming_digitM hmc]
      obtain ⟨D1, D2, hne1, -, -, -, hl, hrep, -⟩ := digitM_some hmc
      subst hrep
      match D1, hne1 with
      | d :: D1', _ =>
        injection hl with h1 h2
        simp [h1]

/-- The digit-merge pass never lengthens the string. -/
theorem scanRun_digitM_le : ∀ (n : ℕ) (l : List Char), l.length ≤ n →
    (scanRun digitM l).length ≤ l.length := by
  intro n
  induction n with
  | zero =>
    intro l hl
    rw [List.length_eq_zero.mp (Nat.le_zero.mp hl)]
    simp [scanRun_nil]
  | succ n ih =>
    intro l hl
    match l with
    | [] => simp [scanRun_nil]
    | c :: r =>
      rcases hmc : digitM (c :: r) with - | ⟨rep, rest⟩
      · rw [scanRun_cons_none consuming_digitM hmc]
        simp only [List.length_cons] at hl ⊢
        have := ih r (by omega)
        omega
      · rw [scanRun_cons_some consuming_digitM hmc]
        obtain ⟨D1, D2, -, -, -, -, hl', hrep, -⟩ := digitM_some hmc
        have hlen : (c :: r).length = D1.length + 1 + (D2.length + rest.length) := by
          rw [hl']
          simp [List.length_append]
          omega
        simp only [List.length_cons] at hl hlen
        have hrest : (scanRun digitM rest).length ≤ rest.length := by
          refine ih rest ?_
          omega
        rw [List.length_append, hrep, List.length_append]
        simp only [List.length_cons]
        omega

/-- Each digit-merge pass either is the identity or strictly shrinks. -/
theorem scanRun_digitM_progress : ∀ (n : ℕ) (l : List Char), l.length ≤ n →
    scanRun digitM l = l ∨ (scanRun digitM l).length < l.length := by
  intro n
  induction n with
  | zero =>
    intro l hl
    rw [List.length_eq_zero.mp (Nat.le_zero.mp hl)]
    exact Or.inl (scanRun_nil _)
  | succ n ih =>
    intro l hl
    match l with
    | [] => exact Or.inl (scanRun_nil _)
    | c :: r =>
      rcases hmc : digitM (c :: r) with - | ⟨rep, rest⟩
      · rw [scanRun_cons_none consuming_digitM hmc]
        simp only [List.length_cons] at hl
        rcases ih r (by omega) with heq | hlt
        · exact Or.inl (by rw [heq])
        · right
          simp only [List.length_cons]
          omega
      · right
        rw [scanRun_cons_some consuming_digitM hmc]
        obtain ⟨D1, D2, -, -, -, -, hl', hrep, -⟩ := digitM_some hmc
        have hlen : (c :: r).length = D1.length + 1 + (D2.length + rest.length) := by
          rw [hl']
          simp [List.length_append]
          omega
        simp only [List.length_cons] at hl hlen
        have hrest : (scanRun digitM rest).length ≤ rest.length := by
          refine scanRun_digitM_le (r.length + 1) rest ?_
          omega
        rw [List.length_append, hrep, List.length_append]
        simp only [List.length_cons]
        omega

/-- A nondigit head cannot start a digit-merge match. -/
theorem digitM_nondigit_head {c : Char} (r : List Char)
    (h : c.isDigit = false) : digitM (c :: r) = none := by
  simp [digitM, h]

/-- A `none` at the head excludes a merge pattern at the head. -/
theorem digitM_none_noHead {c : Char} {r : List Char}
    (h : digitM (c :: r) = none) :
    ¬(c.isDigit = true ∧ ∃ b Y, r = '_' :: b :: Y ∧ b.isDigit = true) := by
  rintro ⟨hc, b, Y, rfl, hb⟩
  simp [digitM, hc, hb, List.dropWhile_cons,
    show ('_').isDigit = false from rfl] at h

/-- A fixpoint of the digit-merge pass is already fully merged. -/
theorem fm_of_fixpoint : ∀ (n : ℕ) (l : List Char), l.length ≤ n →
    scanRun digitM l = l → fullMerge l = l := by
  intro n
  induction n with
  | zero =>
    intro l hl _
    rw [List.length_eq_zero.mp (Nat.le_zero.mp hl)]
    rfl
  | succ n ih =>
    intro l hl hfix
    match l with
    | [] => rfl
    | c :: r =>
      rcases hmc : digitM (c :: r) with - | ⟨rep, rest⟩
      · rw [scanRun_cons_none consuming_digitM hmc] at hfix
        injection hfix with hfix1 hfix2
        simp only [List.length_cons] at hl
        rw [fm_cons (digitM_none_noHead hmc), ih r (by omega) hfix2]
      · exfalso
        have hlen := congrArg List.length hfix
        rw [scanRun_cons_some consuming_digitM hmc] at hlen
        obtain ⟨D1, D2, -, -, -, -, hl', hrep, -⟩ := digitM_some hmc
        have h1 : (c :: r).length = D1.length + 1 + (D2.length + rest.length) := by
          rw [hl']
          simp [List.length_append]
          omega
        simp only [List.length_cons] at hl h1
        have hrest : (scanRun digitM rest).length ≤ rest.length :=
          scanRun_digitM_le (r.length + 1) rest (by omega)
        rw [List.length_append, hrep, List.length_append] at hlen
        simp only [List.length_cons] at hlen
        omega

/-- Head shape of the digit-merge pass result. -/
theorem scanRun_digitM_shape {y : Char} {rest2 : List Char} :
    ∃ Z, scanRun digitM (y :: rest2) = y :: Z := by
  have hh := scanRun_digitM_head (y :: rest2)
  match hsr : scanRun digitM (y :: rest2), hh with
  | [], hh => cases hh
  | y' :: Z, hh =>
    simp only [List.head?_cons, Option.some.injEq] at hh
    exact ⟨Z, by rw [hh]⟩

/-- A pure digit run is already fully merged. -/
theorem fm_digits_id {D : List Char} (hD : ∀ c ∈ D, c.isDigit = true) :
    fullMerge D = D := by
  have h := fm_digits_nomerge (R := []) hD (by rintro ⟨b, Y, h, -⟩; cases h)
  have h2 : fullMerge ([] : List Char) = [] := rfl
  simpa [h2] using h

/-- One digit-merge pass does not change the fully merged form. -/
theorem fm_scanRun : ∀ (n : ℕ) (l : List Char), l.length ≤ n →
    fullMerge (scanRun digitM l) = fullMerge l := by
  intro n
  induction n with
  | zero =>
    intro l hl
    rw [List.length_eq_zero.mp (Nat.le_zero.mp hl)]
    rfl
  | succ n ih =>
    intro l hl
    match l with
    | [] => rfl
    | c :: r =>
      simp only [List.length_cons] at hl
      rcases hmc : digitM (c :: r) with - | ⟨rep, rest⟩
      · rw [scanRun_cons_none consuming_digitM hmc]
        have hnh := digitM_none_noHead hmc
        by_cases hc : c.isDigit = true
        · have hr : ¬∃ b Y, r = '_' :: b :: Y ∧ b.isDigit = true :=
            fun hex => hnh ⟨hc, hex⟩
          have hsr : ¬∃ b Y, scanRun digitM r = '_' :: b :: Y ∧ b.isDigit = true := by
            rintro ⟨b, Y, hsh, hb⟩
            have hhead := scanRun_digitM_head r
            rw [hsh] at hhead
            match r, hhead with
            | [], hhead => cases hhead
            | x :: r2, hhead =>
              simp only [List.head?_cons, Option.some.injEq] at hhead
              subst hhead
              rw [scanRun_cons_none consuming_digitM
                (digitM_nondigit_head r2 (by rfl))] at hsh
              injection hsh with h1 h2
              have hh2 := scanRun_digitM_head r2
              rw [h2] at hh2
              match r2, hh2 with
              | [], hh2 => cases hh2
              | y :: r3, hh2 =>
                simp only [List.head?_cons, Option.some.injEq] at hh2
                exact hr ⟨y, r3, rfl, by rw [← hh2]; exact hb⟩
          rw [fm_cons fun hcon => hsr hcon.2, fm_cons fun hcon => hr hcon.2,
            ih r (by omega)]
        · rw [fm_cons fun hcon => hc hcon.1, fm_cons fun hcon => hc hcon.1,
            ih r (by omega)]
      · rw [scanRun_cons_some consuming_digitM hmc]
        obtain ⟨D1, D2, hne1, hne2, hd1, hd2, hl', hrep, hrh⟩ := digitM_some hmc
        subst hrep
        rw [hl']
        have hlenr := congrArg List.length hl'
        simp only [List.length_cons, List.length_append] at hlenr
        have hd12 : ∀ a ∈ D1 ++ D2, a.isDigit = true := by
          intro a ha
          rcases List.mem_append.mp ha with h | h
          · exact hd1 a h
          · exact hd2 a h
        match D2, hne2, hd2, hd12, hl', hlenr, hrh with
        | b :: D2', _, hd2, hd12, hl', hlenr, hrh =>
          have hb := hd2 b (by simp)
          have hRHS : fullMerge (D1 ++ '_' :: (b :: D2' ++ rest)) =
              D1 ++ fullMerge (b :: D2' ++ rest) := by
            rw [List.cons_append]
            exact fm_digits_merge hne1 hd1 hb
          rw [hRHS]
          match rest, hrh, hl', hlenr with
          | [], _, hl', hlenr =>
            simp only [scanRun_nil, List.append_nil]
            rw [fm_digits_id hd12, fm_digits_id hd2]
          | x :: rest2, hrh, hl', hlenr =>
            have hx : x.isDigit = false := hrh x rest2 rfl
            by_cases hxu : x = '_'
            · subst hxu
              match rest2, hrh, hl', hlenr with
              | [], _, hl', hlenr =>
                have hsp : scanRun digitM ['_'] = ['_'] :=
                  scanRun_cons_none consuming_digitM
                    (digitM_nondigit_head [] (by rfl))
                rw [hsp]
                rw [fm_digits_nomerge (R := ['_']) hd12
                  (by rintro ⟨b', Y', h', -⟩; injection h' with h1 h2; cases h2)]
                rw [fm_digits_nomerge (R := ['_']) hd2
                  (by rintro ⟨b', Y', h', -⟩; injection h' with h1 h2; cases h2)]
                simp [List.append_assoc]
              | y :: rest3, hrh, hl', hlenr =>
                have hrest2 : (y :: rest3).length ≤ n := by
                  simp only [List.length_cons] at hl hlenr ⊢
                  omega
                have hIH2 := ih (y :: rest3) hrest2
                have hstep : scanRun digitM ('_' :: y :: rest3) =
                    '_' :: scanRun digitM (y :: rest3) :=
                  scanRun_cons_none consuming_digitM
                    (digitM_nondigit_head (y :: rest3) (by rfl))
                rw [hstep]
                obtain ⟨Z, hZ⟩ := @scanRun_digitM_shape y rest3
                by_cases hy : y.isDigit = true
                · rw [hZ]
                  rw [fm_digits_merge (by simp [hne1]) hd12 hy]
                  rw [fm_digits_merge (by simp) hd2 hy]
                  rw [← hZ, hIH2]
                  simp [List.append_assoc]
                · rw [hZ]
                  rw [fm_digits_nomerge (R := '_' :: y :: Z) hd12 (by
                    rintro ⟨b', Y', h', hb'⟩
                    injection h' with h1 h2
                    injection h2 with h3 h4
                    exact hy (by rw [h3]; exact hb'))]
                  rw [fm_digits_nomerge (R := '_' :: y :: rest3) hd2 (by
                    rintro ⟨b', Y', h', hb'⟩
                    injection h' with h1 h2
                    injection h2 with h3 h4
                    exact hy (by rw [h3]; exact hb'))]
                  rw [@fm_cons '_' (y :: Z)
                      (by rintro ⟨hdig, -⟩; exact absurd hdig (by decide)),
                    @fm_cons '_' (y :: rest3)
                      (by rintro ⟨hdig, -⟩; exact absurd hdig (by decide))]
                  rw [← hZ, hIH2]
                  simp [List.append_assoc]
            · have hrest : (x :: rest2).length ≤ n := by
                simp only [List.length_cons] at hl hlenr ⊢
                omega
              have hIH2 := ih (x :: rest2) hrest
              obtain ⟨Z, hZ⟩ := @scanRun_digitM_shape x rest2
              rw [hZ]
              rw [fm_digits_nomerge (R := x :: Z) hd12 (by
                rintro ⟨b', Y', h', -⟩
                injection h' with hxx h2
                exact hxu hxx)]
              rw [fm_digits_nomerge (R := x :: rest2) hd2 (by
                rintro ⟨b', Y', h', -⟩
                injection h' with hxx h2
                exact hxu hxx)]
              rw [← hZ, hIH2]
              simp [List.append_assoc]

theorem dmLoop_eq : ∀ (f : ℕ) (l : List Char), l.length < f →
    dmLoop f l = fullMerge l := by
  intro f
  induction f with
  | zero => intro l hl; exact absurd hl (Nat.not_lt_zero _)
  | succ f ih =>
    intro l hl
    simp only [dmLoop]
    by_cases hlt : (scanRun digitM l).length < l.length
    · rw [if_pos hlt]
      rw [ih (scanRun digitM l) (by omega)]
      exact fm_scanRun l.length l le_rfl
    · rw [if_neg hlt]
      rcases scanRun_digitM_progress l.length l le_rfl with heq | hlt2
      · rw [heq, fm_of_fixpoint l.length l le_rfl heq]
      · exact absurd hlt2 hlt

/-! ## Rendering and parsing value lemmas (C6) -/

theorem digitChar_toNat {d : ℕ} (hd : d < 10) :
    (Nat.digitChar d).toNat - 48 = d := by
  interval_cases d <;> rfl

theorem digitChar_isDigit {d : ℕ} (hd : d < 10) :
    (Nat.digitChar d).isDigit = true := by
  interval_cases d <;> rfl

/-- `parseDigits` inverts the digit-character rendering: reading the
reversed digit characters back gives `Nat.ofDigits`. -/
theorem parseDigits_rev_map {ds : List ℕ} (h : ∀ d ∈ ds, d < 10) :
    parseDigits ((ds.map Nat.digitChar).reverse) = Nat.ofDigits 10 ds := by
  unfold parseDigits
  rw [List.foldl_reverse, List.foldr_map]
  induction ds with
  | nil => rfl
  | cons d rest ih =>
    have hd10 := h d (List.mem_cons_self d rest)
    have ih' := ih fun x hx => h x (List.mem_cons_of_mem d hx)
    simp only [List.foldr_cons, ih', Nat.ofDigits_cons, digitChar_toNat hd10]
    omega

theorem parseDigits_natToChars (n : ℕ) : parseDigits (natToChars n) = n := by
  unfold natToChars
  by_cases h : n = 0
  · subst h
    decide
  · rw [if_neg h,
      parseDigits_rev_map fun d hd => Nat.digits_lt_base (by norm_num) hd,
      Nat.ofDigits_digits]

theorem ofDigits_replicate_zero (k : ℕ) :
    Nat.ofDigits 10 (List.replicate k 0) = 0 := by
  induction k with
  | zero => rfl
  | succ k ih => rw [List.replicate_succ, Nat.ofDigits_cons, ih]

theorem parseDigits_fracChars (f d : ℕ) : parseDigits (fracChars f d) = f := by
  unfold fracChars
  rw [parseDigits_rev_map ?dig, Nat.ofDigits_append, ofDigits_replicate_zero,
    Nat.ofDigits_digits]
  case dig =>
    intro x hx
    rcases List.mem_append.mp hx with hx | hx
    · exact Nat.digits_lt_base (by norm_num) hx
    · rw [List.eq_of_mem_replicate hx]; norm_num
  simp

theorem fracChars_length {f d : ℕ} (hf : f < 10 ^ d) :
    (fracChars f d).length = d := by
  have hlen : (Nat.digits 10 f).length ≤ d := by
    by_cases h0 : f = 0
    · subst h0; simp
    · rw [Nat.digits_len 10 f (by norm_num) h0]
      have := Nat.log_lt_of_lt_pow h0 hf
      omega
  simp only [fracChars, List.length_reverse, List.length_map, List.length_append,
    List.length_replicate]
  omega

theorem natToChars_digits {n : ℕ} : ∀ c ∈ natToChars n, c.isDigit = true := by
  intro c hc
  unfold natToChars at hc
  by_cases h : n = 0
  · rw [if_pos h] at hc
    simp only [List.mem_singleton] at hc
    subst hc; rfl
  · rw [if_neg h] at hc
    simp only [List.mem_reverse, List.mem_map] at hc
    obtain ⟨d, hd, rfl⟩ := hc
    exact digitChar_isDigit (Nat.digits_lt_base (by norm_num) hd)

theorem fracChars_digits {f d : ℕ} : ∀ c ∈ fracChars f d, c.isDigit = true := by
  intro c hc
  simp only [fracChars, List.mem_reverse, List.mem_map] at hc
  obtain ⟨x, hx, rfl⟩ := hc
  rcases List.mem_append.mp hx with hx | hx
  · exact digitChar_isDigit (Nat.digits_lt_base (by norm_num) hx)
  · rw [List.eq_of_mem_replicate hx]; rfl

theorem dropWhile_append_of {p : Char → Bool} {A B : List Char}
    (hA : ∀ c ∈ A, p c = true) :
    (A ++ B).dropWhile p = B.dropWhile p := by
  induction A with
  | nil => rfl
  | cons a A' ih =>
    simp [List.dropWhile_cons, hA a (by simp), ih fun c hc => hA c (by simp [hc])]

theorem takeWhile_append_of {p : Char → Bool} {A B : List Char}
    (hA : ∀ c ∈ A, p c = true) :
    (A ++ B).takeWhile p = A ++ B.takeWhile p := by
  induction A with
  | nil => rfl
  | cons a A' ih =>
    simp [List.takeWhile_cons, hA a (by simp), ih fun c hc => hA c (by simp [hc])]

/-- `Number` on a nonempty all-digit token. -/
theorem pn_digits {D : List Char} (hD : DigitsTok D) :
    parseNumC D = some (parseDigits D : ℚ) := by
  obtain ⟨hne, hdig⟩ := hD
  match D, hne with
  | c :: D', _ =>
    have hc := hdig c (List.mem_cons_self c D')
    have hcm : c ≠ '-' := by rintro rfl; exact absurd hc (by decide)
    have hcp : c ≠ '+' := by rintro rfl; exact absurd hc (by decide)
    have htw : (c :: D').takeWhile Char.isDigit = c :: D' :=
      List.takeWhile_eq_self_iff.mpr hdig
    have hdw : (c :: D').dropWhile Char.isDigit = [] :=
      List.dropWhile_eq_nil_iff.mpr hdig
    have hall : ((c :: D').all Char.isDigit) = true := List.all_eq_true.mpr hdig
    simp [parseNumC, hcm, hcp, htw, hdw, hall]

/-- `Number` on a minus sign followed by an all-digit token. -/
theorem pn_digits_neg {D : List Char} (hD : DigitsTok D) :
    parseNumC ('-' :: D) = some (-(parseDigits D : ℚ)) := by
  obtain ⟨hne, hdig⟩ := hD
  have htw : D.takeWhile Char.isDigit = D := List.takeWhile_eq_self_iff.mpr hdig
  have hdw : D.dropWhile Char.isDigit = [] := List.dropWhile_eq_nil_iff.mpr hdig
  simp [parseNumC, htw, hdw, hne]

/-- `Number` on a decimal-literal token `digits.digits`. -/
theorem pn_dec {D F : List Char} (hD : DigitsTok D) (hF : DigitsTok F) :
    parseNumC (D ++ '.' :: F) =
      some ((parseDigits D : ℚ) + parseDigits F / 10 ^ F.length) := by
  obtain ⟨hne, hdig⟩ := hD
  obtain ⟨hneF, hdigF⟩ := hF
  match D, hne with
  | c :: D', _ =>
    have hc := hdig c (List.mem_cons_self c D')
    have hcm : c ≠ '-' := by rintro rfl; exact absurd hc (by decide)
    have hcp : c ≠ '+' := by rintro rfl; exact absurd hc (by decide)
    have htw : ((c :: D') ++ '.' :: F).takeWhile Char.isDigit = c :: D' := by
      rw [takeWhile_append_of hdig]
      simp [List.takeWhile_cons]
    have hdw : ((c :: D') ++ '.' :: F).dropWhile Char.isDigit = '.' :: F := by
      rw [dropWhile_append_of hdig]
      simp [List.dropWhile_cons]
    have hstep : (c :: D') ++ '.' :: F = c :: (D' ++ '.' :: F) := by simp
    have hall : (F.all Char.isDigit) = true := List.all_eq_true.mpr hdigF
    rw [hstep] at htw hdw ⊢
    simp [parseNumC, hcm, hcp, htw, hdw, hall]

/-- `Number` on a minus sign followed by a decimal-literal token. -/
theorem pn_dec_neg {D F : List Char} (hD : DigitsTok D) (hF : DigitsTok F) :
    parseNumC ('-' :: (D ++ '.' :: F)) =
      some (-((parseDigits D : ℚ) + parseDigits F / 10 ^ F.length)) := by
  obtain ⟨hne, hdig⟩ := hD
  obtain ⟨hneF, hdigF⟩ := hF
  have htw : (D ++ '.' :: F).takeWhile Char.isDigit = D := by
    rw [takeWhile_append_of hdig]
    simp [List.takeWhile_cons]
  have hdw : (D ++ '.' :: F).dropWhile Char.isDigit = '.' :: F := by
    rw [dropWhile_append_of hdig]
    simp [List.dropWhile_cons]
  have hall : (F.all Char.isDigit) = true := List.all_eq_true.mpr hdigF
  simp [parseNumC, htw, hdw, hne, hall]

theorem dropWhile_append_of_ne {p : Char → Bool} {A B : List Char}
    (h : A.dropWhile p ≠ []) :
    (A ++ B).dropWhile p = A.dropWhile p ++ B := by
  induction A with
  | nil => cases h rfl
  | cons a A' ih =>
    by_cases hp : p a
    · have h2 : A'.dropWhile p ≠ [] := by
        simpa [List.dropWhile_cons, hp] using h
      simp [List.dropWhile_cons, hp, ih h2]
    · simp [List.dropWhile_cons, hp]

/-- The trailing-zero trim of `niceround` on a decimal rendering `P.F`:
if the fraction is all zeros it is dropped together with the point,
otherwise its trailing zeros go. -/
theorem trimZeros_dec {P F : List Char} (hF : ∀ c ∈ F, c.isDigit = true) :
    trimZeros (P ++ '.' :: F) =
      if F.reverse.dropWhile (· = '0') = [] then P
      else P ++ '.' :: (F.reverse.dropWhile (· = '0')).reverse := by
  unfold trimZeros
  have hrev : (P ++ '.' :: F).reverse = F.reverse ++ '.' :: P.reverse := by
    simp
  rw [hrev]
  by_cases hR : F.reverse.dropWhile (· = '0') = []
  · have hall : ∀ c ∈ F.reverse, (fun c => decide (c = '0')) c = true :=
      List.dropWhile_eq_nil_iff.mp hR
    rw [dropWhile_append_of hall, if_pos hR]
    have hdot : ('.' :: P.reverse).dropWhile (· = '0') = '.' :: P.reverse := by
      simp [List.dropWhile_cons]
    rw [hdot]
    simp
  · rw [dropWhile_append_of_ne hR, if_neg hR]
    match hRm : F.reverse.dropWhile (· = '0'), hR with
    | x :: R2, _ =>
      have hxF : x ∈ F := by
        have hmem : x ∈ F.reverse.dropWhile (· = '0') := by rw [hRm]; simp
        exact List.mem_reverse.mp ((List.dropWhile_sublist _).subset hmem)
      have hxd : x.isDigit = true := hF x hxF
      have hxdot : x ≠ '.' := by rintro rfl; exact absurd hxd (by decide)
      simp [hxdot]

theorem parseDigits_zeros {F : List Char} (h : ∀ c ∈ F, c = '0') :
    parseDigits F = 0 := by
  unfold parseDigits
  induction F with
  | nil => rfl
  | cons c rest ih =>
    rw [List.foldl_cons, h c (List.mem_cons_self c rest)]
    exact ih fun c hc => h c (List.mem_cons_of_mem _ hc)

theorem foldl_digits_zeros {Z : List Char} (h : ∀ c ∈ Z, c = '0') :
    ∀ a : ℕ, Z.foldl (fun a c => 10 * a + (c.toNat - 48)) a = 10 ^ Z.length * a := by
  induction Z with
  | nil => intro a; simp
  | cons c rest ih =>
    intro a
    rw [List.foldl_cons, h c (List.mem_cons_self c rest),
      ih (fun c hc => h c (List.mem_cons_of_mem _ hc))]
    simp [List.length_cons]
    ring

theorem parseDigits_append_zeros {X Z : List Char} (h : ∀ c ∈ Z, c = '0') :
    parseDigits (X ++ Z) = 10 ^ Z.length * parseDigits X := by
  unfold parseDigits
  rw [List.foldl_append]
  exact foldl_digits_zeros h _

/-- Structure of the trimmed literal of `n / 10^12`. -/
theorem litOfNat_eq (n : ℕ) :
    litOfNat n =
      if (fracChars (n % 10 ^ 12) 12).reverse.dropWhile (· = '0') = [] then
        natToChars (n / 10 ^ 12)
      else
        natToChars (n / 10 ^ 12) ++
          '.' :: ((fracChars (n % 10 ^ 12) 12).reverse.dropWhile (· = '0')).reverse := by
  unfold litOfNat fixedOfNat
  exact trimZeros_dec fun c hc => fracChars_digits c hc

theorem natToChars_digitsTok (m : ℕ) : DigitsTok (natToChars m) :=
  ⟨natToChars_ne_nil m, natToChars_digits⟩

/-- Parsing the trimmed literal recovers exactly `n / 10^12`. -/
theorem pn_litOfNat (n : ℕ) : parseNumC (litOfNat n) = some ((n : ℚ) / 10 ^ 12) := by
  rw [litOfNat_eq]
  by_cases hR : (fracChars (n % 10 ^ 12) 12).reverse.dropWhile (· = '0') = []
  · rw [if_pos hR, pn_digits (natToChars_digitsTok _), parseDigits_natToChars]
    have hz : ∀ c ∈ fracChars (n % 10 ^ 12) 12, c = '0' := by
      intro c hc
      have := List.dropWhile_eq_nil_iff.mp hR c (List.mem_reverse.mpr hc)
      simpa using this
    have hmod : n % 10 ^ 12 = 0 := by
      have h1 := parseDigits_fracChars (n % 10 ^ 12) 12
      rw [parseDigits_zeros hz] at h1
      omega
    have hdvd : 10 ^ 12 ∣ n := Nat.dvd_of_mod_eq_zero hmod
    rw [Nat.cast_div hdvd (by norm_num)]
    norm_num
  · rw [if_neg hR]
    have hFd : ∀ c ∈ ((fracChars (n % 10 ^ 12) 12).reverse.dropWhile (· = '0')).reverse,
        c.isDigit = true := by
      intro c hc
      exact fracChars_digits c (List.mem_reverse.mp
        ((List.dropWhile_sublist _).subset (List.mem_reverse.mp hc)))
    have hFne : ((fracChars (n % 10 ^ 12) 12).reverse.dropWhile (· = '0')).reverse ≠ [] := by
      intro h
      exact hR (by simpa using congrArg List.reverse h)
    rw [pn_dec (natToChars_digitsTok _) ⟨hFne, hFd⟩, parseDigits_natToChars]
    -- decompose the fraction block: F = F' ++ zeros
    have hsplit : fracChars (n % 10 ^ 12) 12 =
        ((fracChars (n % 10 ^ 12) 12).reverse.dropWhile (· = '0')).reverse ++
          ((fracChars (n % 10 ^ 12) 12).reverse.takeWhile (· = '0')).reverse := by
      rw [← List.reverse_append, List.takeWhile_append_dropWhile, List.reverse_reverse]
    have hzeros : ∀ c ∈ ((fracChars (n % 10 ^ 12) 12).reverse.takeWhile (· = '0')).reverse,
        c = '0' := by
      intro c hc
      have := List.mem_takeWhile_imp (List.mem_reverse.mp hc)
      simpa using this
    have hval := parseDigits_fracChars (n % 10 ^ 12) 12
    rw [hsplit, parseDigits_append_zeros hzeros] at hval
    have hlen : (fracChars (n % 10 ^ 12) 12).length = 12 :=
      fracChars_length (Nat.mod_lt n (by norm_num))
    rw [hsplit] at hlen
    rw [List.length_append] at hlen
    -- notation
    set F' := ((fracChars (n % 10 ^ 12) 12).reverse.dropWhile (· = '0')).reverse with hF'
    set Z := ((fracChars (n % 10 ^ 12) 12).reverse.takeWhile (· = '0')).reverse with hZ
    have hmod : ((n % 10 ^ 12 : ℕ) : ℚ) = 10 ^ Z.length * parseDigits F' := by
      exact_mod_cast congrArg (Nat.cast : ℕ → ℚ) hval.symm
    have hdm : (n : ℚ) = 10 ^ 12 * ((n / 10 ^ 12 : ℕ) : ℚ) + ((n % 10 ^ 12 : ℕ) : ℚ) := by
      exact_mod_cast congrArg (Nat.cast : ℕ → ℚ) (Nat.div_add_mod n (10 ^ 12)).symm
    rw [hmod] at hdm
    have h12 : (12 : ℕ) = F'.length + Z.length := hlen.symm
    congr 1
    rw [hdm, h12]
    have h10 : (0 : ℚ) < 10 := by norm_num
    field_simp
    ring

theorem pn_neg_litOfNat (n : ℕ) :
    parseNumC ('-' :: litOfNat n) = some (-((n : ℚ) / 10 ^ 12)) := by
  rw [litOfNat_eq]
  by_cases hR : (fracChars (n % 10 ^ 12) 12).reverse.dropWhile (· = '0') = []
  · rw [if_pos hR, pn_digits_neg (natToChars_digitsTok _), parseDigits_natToChars]
    have hz : ∀ c ∈ fracChars (n % 10 ^ 12) 12, c = '0' := by
      intro c hc
      have := List.dropWhile_eq_nil_iff.mp hR c (List.mem_reverse.mpr hc)
      simpa using this
    have hmod : n % 10 ^ 12 = 0 := by
      have h1 := parseDigits_fracChars (n % 10 ^ 12) 12
      rw [parseDigits_zeros hz] at h1
      omega
    have hdvd : 10 ^ 12 ∣ n := Nat.dvd_of_mod_eq_zero hmod
    rw [Nat.cast_div hdvd (by norm_num)]
    norm_num
  · rw [if_neg hR]
    have hFd : ∀ c ∈ ((fracChars (n % 10 ^ 12) 12).reverse.dropWhile (· = '0')).reverse,
        c.isDigit = true := by
      intro c hc
      exact fracChars_digits c (List.mem_reverse.mp
        ((List.dropWhile_sublist _).subset (List.mem_reverse.mp hc)))
    have hFne : ((fracChars (n % 10 ^ 12) 12).reverse.dropWhile (· = '0')).reverse ≠ [] := by
      intro h
      exact hR (by simpa using congrArg List.reverse h)
    rw [pn_dec_neg (natToChars_digitsTok _) ⟨hFne, hFd⟩]
    have := pn_litOfNat n
    rw [litOfNat_eq, if_neg hR, pn_dec (natToChars_digitsTok _) ⟨hFne, hFd⟩] at this
    have hval := Option.some.injEq _ _ ▸ this
    simp only [Option.some.injEq] at hval
    rw [hval]

theorem litOfNat_zero : litOfNat 0 = ['0'] := by
  have h : fracChars (0 % 10 ^ 12) 12 = List.replicate 12 '0' := by
    norm_num [fracChars, Nat.digits_zero, List.map_replicate]
    rfl
  rw [litOfNat_eq, if_pos ?hz]
  · norm_num [natToChars]
  case hz =>
    rw [h]
    rw [List.dropWhile_eq_nil_iff]
    intro x hx
    have := List.eq_of_mem_replicate (List.mem_reverse.mp hx)
    simp [this]

theorem litOfNat_eq_zero_iff {n : ℕ} : litOfNat n = ['0'] ↔ n = 0 := by
  constructor
  · intro h
    have hv := pn_litOfNat n
    rw [h] at hv
    have h0 : parseNumC ['0'] = some ((0 : ℕ) : ℚ) := by
      have := pn_digits (D := ['0']) ⟨by simp, by decide⟩
      simpa [parseDigits] using this
    rw [h0] at hv
    simp only [Option.some.injEq] at hv
    have : (n : ℚ) = 0 := by
      field_simp at hv
      exact_mod_cast hv.symm
    exact_mod_cast this
  · rintro rfl
    exact litOfNat_zero

theorem numTok_litOfNat (n : ℕ) : NumTok (litOfNat n) := by
  rw [litOfNat_eq]
  by_cases hR : (fracChars (n % 10 ^ 12) 12).reverse.dropWhile (· = '0') = []
  · rw [if_pos hR]
    exact Or.inl (natToChars_digitsTok _)
  · rw [if_neg hR]
    refine Or.inr ⟨natToChars (n / 10 ^ 12), _, natToChars_digitsTok _, ⟨?_, ?_⟩, rfl⟩
    · intro h
      exact hR (by simpa using congrArg List.reverse h)
    · intro c hc
      exact fracChars_digits c (List.mem_reverse.mp
        ((List.dropWhile_sublist _).subset (List.mem_reverse.mp hc)))

/-- `toFixed(12)` of a nonnegative value, as the fixed rendering of the
rounded numerator. -/
theorem numToFixed_nonneg {q : ℚ} (h : 0 ≤ q) :
    numToFixed q 12 = fixedOfNat (posr q) := by
  simp only [numToFixed, fixedPos, fixedOfNat, posr]
  rw [if_neg (not_lt.mpr h), if_neg (show ¬((12 : ℕ) = 0) by norm_num)]

theorem numToFixed_neg {q : ℚ} (h : q < 0) :
    numToFixed q 12 = '-' :: fixedOfNat (posr (-q)) := by
  simp only [numToFixed, fixedPos, fixedOfNat, posr]
  rw [if_pos h, if_neg (show ¬((12 : ℕ) = 0) by norm_num)]

theorem fixedOfNat_contains (n : ℕ) : (fixedOfNat n).contains '.' = true := by
  simp [fixedOfNat, List.contains]

/-- `niceround` of a nonnegative value is the trimmed literal of its
rounded numerator. -/
theorem niceround_nonneg {q : ℚ} (h : 0 ≤ q) :
    niceround q = litOfNat (posr q) := by
  simp only [niceround]
  rw [numToFixed_nonneg h, if_pos (fixedOfNat_contains _)]
  rfl

/-- `niceround` of a negative value is a minus sign followed by the
trimmed literal of the rounded numerator of its absolute value. -/
theorem niceround_neg {q : ℚ} (h : q < 0) :
    niceround q = '-' :: litOfNat (posr (-q)) := by
  simp only [niceround]
  rw [numToFixed_neg h]
  rw [if_pos (by simp [fixedOfNat, List.contains])]
  have hstep : '-' :: fixedOfNat (posr (-q)) =
      ('-' :: natToChars (posr (-q) / 10 ^ 12)) ++
        '.' :: fracChars (posr (-q) % 10 ^ 12) 12 := by
    simp [fixedOfNat]
  rw [hstep, trimZeros_dec fun c hc => fracChars_digits c hc, litOfNat_eq,
    apply_ite (List.cons '-')]
  by_cases hR : (fracChars (posr (-q) % 10 ^ 12) 12).reverse.dropWhile (· = '0') = []
  · rw [if_pos hR, if_pos hR]
  · rw [if_neg hR, if_neg hR]
    simp

/-- Rounding is idempotent on 12-decimal-place values. -/
theorem posr_div (n : ℕ) : posr ((n : ℚ) / 10 ^ 12) = n := by
  unfold posr
  have h1 : (n : ℚ) / 10 ^ 12 * 10 ^ 12 + 1 / 2 = n + 1 / 2 := by
    field_simp
  rw [h1]
  have h2 : ⌊(n : ℚ) + 1 / 2⌋ = (n : ℤ) := by
    rw [Int.floor_eq_iff]
    constructor
    · push_cast; linarith
    · push_cast; linarith
  rw [h2]
  exact Int.toNat_natCast n

theorem posr_zero : posr 0 = 0 := by
  have := posr_div 0
  simpa using this

/-- The rounded value of a nonnegative rational. -/
theorem r12_nonneg {q : ℚ} (h : 0 ≤ q) : r12 q = (posr q : ℚ) / 10 ^ 12 := by
  unfold r12
  rw [if_neg (not_lt.mpr h)]

theorem r12_neg {q : ℚ} (h : q < 0) : r12 q = -((posr (-q) : ℚ) / 10 ^ 12) := by
  unfold r12
  rw [if_pos h]

/-- The 12-place rounding error bound, nonnegative case. -/
theorem posr_err {q : ℚ} (h : 0 ≤ q) :
    |(posr q : ℚ) / 10 ^ 12 - q| ≤ 1 / (2 * 10 ^ 12) := by
  have hE : (0 : ℚ) < 10 ^ 12 := by norm_num
  have hfl : (0 : ℤ) ≤ ⌊q * 10 ^ 12 + 1 / 2⌋ := by
    apply Int.floor_nonneg.mpr
    positivity
  have hcast : ((posr q : ℚ)) = ((⌊q * 10 ^ 12 + 1 / 2⌋ : ℤ) : ℚ) := by
    unfold posr
    exact_mod_cast congrArg (Int.cast : ℤ → ℚ) (Int.toNat_of_nonneg hfl)
  have hub : ((⌊q * 10 ^ 12 + 1 / 2⌋ : ℤ) : ℚ) ≤ q * 10 ^ 12 + 1 / 2 := Int.floor_le _
  have hlb : q * 10 ^ 12 + 1 / 2 < ((⌊q * 10 ^ 12 + 1 / 2⌋ : ℤ) : ℚ) + 1 :=
    Int.lt_floor_add_one _
  rw [hcast]
  have heq : ((⌊q * 10 ^ 12 + 1 / 2⌋ : ℤ) : ℚ) / 10 ^ 12 - q =
      (((⌊q * 10 ^ 12 + 1 / 2⌋ : ℤ) : ℚ) - q * 10 ^ 12) / 10 ^ 12 := by
    field_simp
    ring
  rw [heq, abs_div, abs_of_pos hE]
  rw [div_le_div_iff₀ hE (by norm_num : (0 : ℚ) < 2 * 10 ^ 12)]
  have habs : |((⌊q * 10 ^ 12 + 1 / 2⌋ : ℤ) : ℚ) - q * 10 ^ 12| ≤ 1 / 2 := by
    rw [abs_le]
    constructor
    · linarith
    · linarith
  nlinarith [habs]

/-- The 12-place rounding error bound. -/
theorem r12_err (q : ℚ) : |r12 q - q| ≤ 1 / (2 * 10 ^ 12) := by
  by_cases h : q < 0
  · rw [r12_neg h]
    have h2 := posr_err (q := -q) (by linarith)
    calc |-((posr (-q) : ℚ) / 10 ^ 12) - q| =
        |(posr (-q) : ℚ) / 10 ^ 12 - -q| := by rw [← abs_neg]; ring_nf
      _ ≤ 1 / (2 * 10 ^ 12) := h2
  · rw [r12_nonneg (not_lt.mp h)]
    exact posr_err (not_lt.mp h)

/-! ## Tokenizing a rendered string (C6) -/

theorem intersperse_append {A B : List Char} (hA : A ≠ []) (hB : B ≠ []) :
    List.intersperse '_' (A ++ B) =
      List.intersperse '_' A ++ '_' :: List.intersperse '_' B := by
  induction A with
  | nil => cases hA rfl
  | cons a A' ih =>
    match A', B, hB with
    | [], b :: B', _ => simp [List.intersperse]
    | a2 :: A'', b :: B', _ =>
      have := ih (by simp)
      simp only [List.cons_append, List.intersperse, List.append_eq] at this ⊢
      rw [this]

theorem jsTrim_id {l : List Char}
    (h : ∀ c ∈ l, c ≠ ' ' ∧ c ≠ '\t' ∧ c ≠ '\n' ∧ c ≠ '\r') : jsTrim l = l := by
  unfold jsTrim
  have hdw : ∀ {m : List Char}, (∀ c ∈ m, c ≠ ' ' ∧ c ≠ '\t' ∧ c ≠ '\n' ∧ c ≠ '\r') →
      m.dropWhile (fun c => decide (c = ' ' ∨ c = '\t' ∨ c = '\n' ∨ c = '\r')) = m := by
    intro m hm
    match m with
    | [] => rfl
    | c :: m' =>
      rw [List.dropWhile_cons, if_neg]
      obtain ⟨h1, h2, h3, h4⟩ := hm c (List.mem_cons_self c m')
      simp [h1, h2, h3, h4]
  show (List.dropWhile (fun c => decide (c = ' ' ∨ c = '\t' ∨ c = '\n' ∨ c = '\r'))
      ((List.dropWhile (fun c => decide (c = ' ' ∨ c = '\t' ∨ c = '\n' ∨ c = '\r'))
        l).reverse)).reverse = l
  rw [hdw h]
  rw [hdw fun c hc => h c (List.mem_reverse.mp hc)]
  exact List.reverse_reverse l

theorem toLower_digit {c : Char} (h : c.isDigit = true) : c.toLower = c := by
  unfold Char.toLower
  rw [if_neg]
  rintro ⟨h1, h2⟩
  simp only [Char.isDigit, Bool.and_eq_true, decide_eq_true_eq] at h
  obtain ⟨ha, hb⟩ := h
  have hb' : c.val.toNat ≤ 57 := hb
  have h1' : 65 ≤ c.val.toNat := h1
  omega

theorem goodChar_toLower {c : Char} (h : GoodChar c ∨ c = '_') : c.toLower = c := by
  rcases h with h | rfl
  · simp only [GoodChar] at h
    rcases h with hd | rfl | rfl | rfl | rfl
    · exact toLower_digit hd
    all_goals rfl
  · rfl

theorem mem_intersperse {c : Char} {t : List Char}
    (h : c ∈ List.intersperse '_' t) : c = '_' ∨ c ∈ t := by
  induction t with
  | nil => simp [List.intersperse] at h
  | cons a t' ih =>
    match t' with
    | [] =>
      simp only [List.intersperse, List.mem_singleton] at h
      exact Or.inr (by simp [h])
    | b :: t'' =>
      rw [show List.intersperse '_' (a :: b :: t'') =
        a :: '_' :: List.intersperse '_' (b :: t'') from rfl] at h
      rcases List.mem_cons.mp h with rfl | h
      · exact Or.inr (List.mem_cons_self _ _)
      · rcases List.mem_cons.mp h with rfl | h
        · exact Or.inl rfl
        · rcases ih h with h | h
          · exact Or.inl h
          · exact Or.inr (List.mem_cons_of_mem _ h)

theorem tokJoin_mem {c : Char} {ts : List (List Char)} (h : c ∈ tokJoin ts) :
    c = '_' ∨ ∃ t ∈ ts, c ∈ t := by
  induction ts with
  | nil => simp [tokJoin] at h
  | cons t rest ih =>
    match rest with
    | [] => exact Or.inr ⟨t, by simp, by simpa [tokJoin] using h⟩
    | u :: rest' =>
      rw [show tokJoin (t :: u :: rest') = t ++ '_' :: tokJoin (u :: rest') from rfl] at h
      rcases List.mem_append.mp h with h | h
      · exact Or.inr ⟨t, by simp, h⟩
      · rcases List.mem_cons.mp h with rfl | h
        · exact Or.inl rfl
        · rcases ih h with h | ⟨t', ht', hc⟩
          · exact Or.inl h
          · exact Or.inr ⟨t', by simp [ht'], hc⟩

theorem okSeq_tail {t : List Char} {ts : List (List Char)}
    (h : OkSeq (t :: ts)) : OkSeq ts := by
  match ts with
  | [] => trivial
  | u :: rest => exact h.2

theorem okSeq_head_tok {t : List Char} {ts : List (List Char)}
    (h : OkSeq (t :: ts)) :
    NumTok t ∨ t = ['+'] ∨ t = ['-'] ∨ t = ['j'] := by
  match ts with
  | [] =>
    rcases h with h | h
    · exact Or.inl h
    · exact Or.inr (Or.inr (Or.inr h))
  | u :: rest =>
    rcases h.1 with ⟨hnum, _⟩ | ⟨hsign, _⟩
    · exact Or.inl hnum
    · rcases hsign with h | h
      · exact Or.inr (Or.inl h)
      · exact Or.inr (Or.inr (Or.inl h))

theorem okSeq_mem_tok {ts : List (List Char)} (h : OkSeq ts) :
    ∀ t ∈ ts, NumTok t ∨ t = ['+'] ∨ t = ['-'] ∨ t = ['j'] := by
  induction ts with
  | nil => simp
  | cons t rest ih =>
    intro t' ht'
    rcases List.mem_cons.mp ht' with rfl | ht'
    · exact okSeq_head_tok h
    · exact ih (okSeq_tail h) t' ht'

theorem numTok_chars {t : List Char} (h : NumTok t) :
    ∀ c ∈ t, c.isDigit = true ∨ c = '.' := by
  intro c hc
  rcases h with ⟨_, hdig⟩ | ⟨D, F, hD, hF, rfl⟩
  · exact Or.inl (hdig c hc)
  · rcases List.mem_append.mp hc with hc | hc
    · exact Or.inl (hD.2 c hc)
    · rcases List.mem_cons.mp hc with rfl | hc
      · exact Or.inr rfl
      · exact Or.inl (hF.2 c hc)

theorem okSeq_goodChar {ts : List (List Char)} (h : OkSeq ts) :
    ∀ t ∈ ts, ∀ c ∈ t, GoodChar c := by
  intro t ht c hc
  rcases okSeq_mem_tok h t ht with hn | rfl | rfl | rfl
  · rcases numTok_chars hn c hc with hd | rfl
    · exact Or.inl hd
    · exact Or.inr (Or.inl rfl)
  · rcases List.mem_singleton.mp hc with rfl
    exact Or.inr (Or.inr (Or.inl rfl))
  · rcases List.mem_singleton.mp hc with rfl
    exact Or.inr (Or.inr (Or.inr (Or.inl rfl)))
  · rcases List.mem_singleton.mp hc with rfl
    exact Or.inr (Or.inr (Or.inr (Or.inr rfl)))

theorem okSeq_tok_ne_nil {ts : List (List Char)} (h : OkSeq ts) :
    ∀ t ∈ ts, t ≠ [] := by
  intro t ht
  rcases okSeq_mem_tok h t ht with hn | rfl | rfl | rfl
  · rcases hn with ⟨hne, _⟩ | ⟨D, F, hD, _, rfl⟩
    · exact hne
    · simp [hD.1]
  all_goals simp

theorem intersperse_flatten {ts : List (List Char)} (h0 : ts ≠ [])
    (hne : ∀ t ∈ ts, t ≠ []) :
    List.intersperse '_' ts.flatten = tokJoin (ts.map (List.intersperse '_')) := by
  induction ts with
  | nil => cases h0 rfl
  | cons t rest ih =>
    match rest with
    | [] => simp [tokJoin]
    | u :: rest' =>
      have hu := hne u (by simp)
      have hflat : (u :: rest').flatten ≠ [] := by
        match u, hu with
        | c :: u', _ => simp
      rw [List.flatten_cons,
        intersperse_append (hne t (by simp)) hflat,
        ih (by simp) fun t' ht' => hne t' (List.mem_cons_of_mem _ ht')]
      rfl

/-- Merging an interspersed digit run followed by a separator and a
non-digit. -/
theorem fm_irun_sep {D : List Char} (hne : D ≠ []) (hD : ∀ c ∈ D, c.isDigit = true)
    {y : Char} (hy : y.isDigit = false) (Y : List Char) :
    fullMerge (List.intersperse '_' D ++ '_' :: y :: Y) =
      D ++ '_' :: fullMerge (y :: Y) := by
  induction D with
  | nil => cases hne rfl
  | cons d D' ih =>
    have hd := hD d (List.mem_cons_self d D')
    match D' with
    | [] =>
      show fullMerge (d :: '_' :: y :: Y) = [d] ++ '_' :: fullMerge (y :: Y)
      rw [fm_cons (by
        rintro ⟨-, b, Y', heq, hb⟩
        injection heq with h1 h2
        injection h2 with h3 h4
        rw [← h3] at hb
        simp [hb] at hy)]
      rw [fm_cons (by rintro ⟨h, -⟩; exact absurd h (by decide))]
      rfl
    | d2 :: D'' =>
      have h2 := hD d2 (by simp)
      obtain ⟨T, hT⟩ : ∃ T,
          List.intersperse '_' (d2 :: D'') ++ '_' :: y :: Y = d2 :: T := by
        match D'' with
        | [] => exact ⟨'_' :: y :: Y, rfl⟩
        | d3 :: D''' =>
          exact ⟨'_' :: (List.intersperse '_' (d3 :: D''') ++ '_' :: y :: Y), rfl⟩
      show fullMerge (d :: '_' :: (List.intersperse '_' (d2 :: D'') ++ '_' :: y :: Y)) = _
      rw [hT, fm_merge hd h2, ← hT,
        ih (by simp) fun c hc => hD c (List.mem_cons_of_mem _ hc)]
      simp

/-- Merging a terminal interspersed digit run. -/
theorem fm_irun_end {D : List Char} (hne : D ≠ []) (hD : ∀ c ∈ D, c.isDigit = true) :
    fullMerge (List.intersperse '_' D) = D := by
  induction D with
  | nil => cases hne rfl
  | cons d D' ih =>
    have hd := hD d (List.mem_cons_self d D')
    match D' with
    | [] => rfl
    | d2 :: D'' =>
      have h2 := hD d2 (by simp)
      obtain ⟨T, hT⟩ : ∃ T, List.intersperse '_' (d2 :: D'') = d2 :: T := by
        match D'' with
        | [] => exact ⟨[], rfl⟩
        | d3 :: D''' => exact ⟨'_' :: List.intersperse '_' (d3 :: D'''), rfl⟩
      show fullMerge (d :: '_' :: List.intersperse '_' (d2 :: D'')) = _
      rw [hT, fm_merge hd h2, ← hT,
        ih (by simp) fun c hc => hD c (List.mem_cons_of_mem _ hc)]

theorem mTok_digits {D : List Char} (hD : ∀ c ∈ D, c.isDigit = true) :
    mTok D = D := by
  unfold mTok
  rw [List.dropWhile_eq_nil_iff.mpr hD]

theorem mTok_dec {D F : List Char} (hD : DigitsTok D) :
    mTok (D ++ '.' :: F) = D ++ '_' :: '.' :: '_' :: F := by
  unfold mTok
  have hdw : (D ++ '.' :: F).dropWhile Char.isDigit = '.' :: F := by
    rw [dropWhile_append_of hD.2]
    simp [List.dropWhile_cons]
  have htw : (D ++ '.' :: F).takeWhile Char.isDigit = D := by
    rw [takeWhile_append_of hD.2]
    simp [List.takeWhile_cons]
  rw [hdw, htw]
  rfl

theorem tokJoin_map_cons {f : List Char → List Char} {c : Char} {u' : List Char}
    {rest : List (List Char)} (hf : ∃ T, f (c :: u') = c :: T) :
    ∃ Y, tokJoin (List.map f ((c :: u') :: rest)) = c :: Y := by
  obtain ⟨T, hT⟩ := hf
  match rest with
  | [] => exact ⟨T, by simp [tokJoin, hT]⟩
  | v :: rest' =>
    refine ⟨T ++ '_' :: tokJoin (List.map f (v :: rest')), ?_⟩
    show f (c :: u') ++ '_' :: tokJoin (List.map f (v :: rest')) = _
    rw [hT]
    rfl

theorem intersperse_cons_shape (c : Char) (u' : List Char) :
    ∃ T, List.intersperse '_' (c :: u') = c :: T := by
  match u' with
  | [] => exact ⟨[], rfl⟩
  | d :: u'' => exact ⟨'_' :: List.intersperse '_' (d :: u''), rfl⟩

/-- The digit-merge limit of the full interspersed token join. -/
theorem fm_tokJoin {ts : List (List Char)} (h : OkSeq ts) :
    fullMerge (tokJoin (ts.map (List.intersperse '_'))) = tokJoin (ts.map mTok) := by
  induction ts with
  | nil => rfl
  | cons t rest ih =>
    match rest with
    | [] =>
      show fullMerge (List.intersperse '_' t) = mTok t
      rcases okSeq_head_tok h with hn | rfl | rfl | rfl
      · rcases hn with ⟨hne, hdig⟩ | ⟨D, F, hD, hF, rfl⟩
        · rw [fm_irun_end hne hdig, mTok_digits hdig]
        · have hiF : List.intersperse '_' ('.' :: F) =
              '.' :: '_' :: List.intersperse '_' F := by
            match F, hF.1 with
            | g :: F', _ => rfl
          rw [intersperse_append (by simp [hD.1]) (by simp), mTok_dec hD, hiF]
          rw [fm_irun_sep hD.1 hD.2 (by decide) _]
          rw [fm_cons (c := '.') (X := '_' :: List.intersperse '_' F)
            (by rintro ⟨h1, -⟩; exact absurd h1 (by decide))]
          rw [fm_cons (c := '_') (X := List.intersperse '_' F)
            (by rintro ⟨h1, -⟩; exact absurd h1 (by decide))]
          rw [fm_irun_end hF.1 hF.2]
      all_goals rfl
    | u :: rest' =>
      have hpair := h.1
      have htail : OkSeq (u :: rest') := h.2
      have ihh := ih htail
      have hu_ne : u ≠ [] := okSeq_tok_ne_nil htail u (by simp)
      obtain ⟨c, u', rfl⟩ : ∃ c u', u = c :: u' := by
        match u, hu_ne with
        | c :: u', _ => exact ⟨c, u', rfl⟩
      obtain ⟨Y, hY⟩ := @tokJoin_map_cons (List.intersperse '_') c u' rest'
        (intersperse_cons_shape c u')
      show fullMerge (List.intersperse '_' t ++
        '_' :: tokJoin (List.map (List.intersperse '_') ((c :: u') :: rest'))) =
        mTok t ++ '_' :: tokJoin (List.map mTok ((c :: u') :: rest'))
      rcases hpair with ⟨hnum, hu⟩ | ⟨hsign, hnumu⟩
      · -- numeric token followed by a sign or j: the head `c` is not a digit
        have hc_nd : c.isDigit = false := by
          rcases hu with hu | hu | hu <;>
            · injection hu with h1 h2
              rw [h1]
              decide
        rcases hnum with ⟨hne, hdig⟩ | ⟨D, F, hD, hF, rfl⟩
        · rw [hY, fm_irun_sep hne hdig hc_nd Y, ← hY, ihh, mTok_digits hdig]
        · have hiF : List.intersperse '_' ('.' :: F) =
              '.' :: '_' :: List.intersperse '_' F := by
            match F, hF.1 with
            | g :: F', _ => rfl
          rw [hY, intersperse_append (by simp [hD.1]) (by simp), mTok_dec hD, hiF]
          simp only [List.cons_append, List.append_assoc]
          rw [fm_irun_sep hD.1 hD.2 (by decide) _]
          rw [fm_cons (c := '.') (X := '_' :: (List.intersperse '_' F ++ '_' :: c :: Y))
            (by rintro ⟨h1, -⟩; exact absurd h1 (by decide))]
          rw [fm_cons (c := '_') (X := List.intersperse '_' F ++ '_' :: c :: Y)
            (by rintro ⟨h1, -⟩; exact absurd h1 (by decide))]
          rw [fm_irun_sep hF.1 hF.2 hc_nd Y, ← hY, ihh]
      · -- sign token: a single non-digit character
        have ht1 : t = ['+'] ∨ t = ['-'] := hsign
        have hfm : ∀ s : Char, s.isDigit = false →
            fullMerge (s :: '_' :: tokJoin (List.map (List.intersperse '_')
              ((c :: u') :: rest'))) =
            s :: '_' :: tokJoin (List.map mTok ((c :: u') :: rest')) := by
          intro s hs
          rw [fm_cons (by rintro ⟨h1, -⟩; rw [hs] at h1; cases h1)]
          rw [fm_cons (by rintro ⟨h1, -⟩; exact absurd h1 (by decide))]
          rw [ihh]
        rcases ht1 with rfl | rfl
        · exact hfm '+' (by decide)
        · exact hfm '-' (by decide)

theorem decM_none_nondigit {c : Char} {r : List Char} (hc : c.isDigit = false) :
    decM (c :: r) = none := by
  unfold decM
  simp [hc]

/-- `decM` fails at every position of a digit run that is not followed by
an underscore-separator pattern around a point or comma. -/
theorem decM_none_run {x : Char} {X R : List Char} (hx : x.isDigit = true)
    (hX : ∀ c ∈ X, c.isDigit = true)
    (hR : R = [] ∨ ∃ s R', R = '_' :: s :: R' ∧ s ≠ '.' ∧ s ≠ ',') :
    decM ((x :: X) ++ R) = none := by
  have hdw : ((x :: X) ++ R).dropWhile Char.isDigit = R := by
    rw [List.cons_append, List.dropWhile_cons]
    rw [if_pos hx]
    rw [dropWhile_append_of hX]
    rcases hR with rfl | ⟨s, R', rfl, -, -⟩
    · rfl
    · rw [List.dropWhile_cons]
      rw [if_neg (by decide)]
  unfold decM
  rw [List.cons_append]
  simp only [hx, if_true]
  rw [← List.cons_append, hdw]
  rcases hR with rfl | ⟨s, R', rfl, hs1, hs2⟩
  · rfl
  · match R' with
    | [] => rfl
    | z :: R'' =>
      by_cases hz : z = '_'
      · subst hz
        simp [hs1, hs2]
      · simp [hz]

/-- The decimal-merge pass walks over a digit run it cannot rewrite. -/
theorem scanRun_decM_digits {X R : List Char} (hX : ∀ c ∈ X, c.isDigit = true)
    (hR : R = [] ∨ ∃ s R', R = '_' :: s :: R' ∧ s ≠ '.' ∧ s ≠ ',') :
    scanRun decM (X ++ R) = X ++ scanRun decM R := by
  induction X with
  | nil => rfl
  | cons x X' ih =>
    have hx := hX x (List.mem_cons_self x X')
    have hX' : ∀ c ∈ X', c.isDigit = true := fun c hc => hX c (List.mem_cons_of_mem _ hc)
    have hnone : decM ((x :: X') ++ R) = none := decM_none_run hx hX' hR
    rw [List.cons_append] at hnone ⊢
    rw [scanRun_cons_none consuming_decM hnone, ih hX']
    simp

/-- `decM` rewrites the merged decimal pattern in one step. -/
theorem decM_match {D F R : List Char} (hD : DigitsTok D) (hF : DigitsTok F)
    (hR : R = [] ∨ ∃ s R', R = '_' :: s :: R' ∧ s.isDigit = false) :
    decM (D ++ '_' :: '.' :: '_' :: (F ++ R)) = some (D ++ '.' :: F, R) := by
  have hdwF : (F ++ R).dropWhile Char.isDigit = R := by
    rw [dropWhile_append_of hF.2]
    rcases hR with rfl | ⟨s, R', rfl, -⟩
    · rfl
    · rw [List.dropWhile_cons, if_neg (by decide)]
  have htwF : (F ++ R).takeWhile Char.isDigit = F := by
    rw [takeWhile_append_of hF.2]
    rcases hR with rfl | ⟨s, R', rfl, -⟩
    · simp
    · rw [List.takeWhile_cons, if_neg (by decide)]
      simp
  match D, hD.1 with
  | d :: D', _ =>
    have hd := hD.2 d (List.mem_cons_self d D')
    have hdw : ((d :: D') ++ '_' :: '.' :: '_' :: (F ++ R)).dropWhile Char.isDigit =
        '_' :: '.' :: '_' :: (F ++ R) := by
      rw [dropWhile_append_of hD.2, List.dropWhile_cons, if_neg (by decide)]
    have htw : ((d :: D') ++ '_' :: '.' :: '_' :: (F ++ R)).takeWhile Char.isDigit =
        d :: D' := by
      rw [takeWhile_append_of hD.2, List.takeWhile_cons]
      rw [if_neg (by decide)]
      simp
    match F, hF.1 with
    | f :: F', _ =>
      have hf := hF.2 f (List.mem_cons_self f F')
      unfold decM
      simp only [List.cons_append] at hdw htw htwF hdwF ⊢
      simp only [hd, if_true, hdw, hf]
      simp [htw, htwF, hdwF]

theorem numTok_head_digit {c : Char} {u' : List Char} (h : NumTok (c :: u')) :
    c.isDigit = true := by
  rcases h with ⟨hne, hdig⟩ | ⟨D, F, hD, hF, heq⟩
  · exact hdig c (List.mem_cons_self c u')
  · match D, hD.1, heq with
    | d :: D', _, heq =>
      injection heq with h1 h2
      rw [h1]
      exact hD.2 d (List.mem_cons_self d D')

theorem mTok_head {t : List Char}
    (ht : NumTok t ∨ t = ['+'] ∨ t = ['-'] ∨ t = ['j']) :
    ∃ T c u', t = c :: u' ∧ mTok t = c :: T := by
  rcases ht with (⟨hne, hdig⟩ | ⟨D, F, hD, hF, rfl⟩) | rfl | rfl | rfl
  · match t, hne with
    | c :: u', _ =>
      rw [mTok_digits hdig]
      exact ⟨u', c, u', rfl, rfl⟩
  · match D, hD.1 with
    | d :: D', _ =>
      rw [mTok_dec hD]
      exact ⟨D' ++ '_' :: '.' :: '_' :: F, d, D' ++ '.' :: F, by simp, by simp⟩
  · exact ⟨[], '+', [], rfl, rfl⟩
  · exact ⟨[], '-', [], rfl, rfl⟩
  · exact ⟨[], 'j', [], rfl, rfl⟩

/-- The decimal-merge pass on the digit-merged token join restores the
token join itself. -/
theorem dec_tokJoin {ts : List (List Char)} (h : OkSeq ts) :
    scanRun decM (tokJoin (ts.map mTok)) = tokJoin ts := by
  induction ts with
  | nil => rfl
  | cons t rest ih =>
    match rest with
    | [] =>
      show scanRun decM (mTok t) = t
      rcases okSeq_head_tok h with (⟨hne, hdig⟩ | ⟨D, F, hD, hF, rfl⟩) | rfl | rfl | rfl
      · rw [mTok_digits hdig]
        have h2 := scanRun_decM_digits (R := []) hdig (Or.inl rfl)
        simpa [scanRun_nil] using h2
      · rw [mTok_dec hD]
        match D, hD.1 with
        | d :: D', _ =>
          have hm := decM_match (R := []) hD hF (Or.inl rfl)
          simp only [List.append_nil] at hm
          simp only [List.cons_append] at hm ⊢
          rw [scanRun_cons_some consuming_decM hm, scanRun_nil]
          simp
      all_goals rfl
    | u :: rest' =>
      have htail : OkSeq (u :: rest') := h.2
      have hpair := h.1
      have ihh := ih htail
      obtain ⟨T, c, u', rfl, hmu⟩ := mTok_head (okSeq_head_tok htail)
      obtain ⟨Y, hY⟩ := @tokJoin_map_cons mTok c u' rest' ⟨T, hmu⟩
      show scanRun decM (mTok t ++ '_' :: tokJoin (List.map mTok ((c :: u') :: rest'))) =
        t ++ '_' :: tokJoin ((c :: u') :: rest')
      rcases hpair with ⟨hnum, hu⟩ | ⟨hsign, hnumu⟩
      · have hc : c = '+' ∨ c = '-' ∨ c = 'j' := by
          rcases hu with he | he | he <;> (injection he with h1 h2; simp [h1])
        have hcd : c ≠ '.' ∧ c ≠ ',' ∧ c.isDigit = false := by
          rcases hc with rfl | rfl | rfl <;> exact ⟨by decide, by decide, by decide⟩
        rcases hnum with ⟨hne, hdig⟩ | ⟨D, F, hD, hF, rfl⟩
        · rw [mTok_digits hdig, hY]
          rw [scanRun_decM_digits hdig (Or.inr ⟨c, Y, rfl, hcd.1, hcd.2.1⟩)]
          rw [scanRun_cons_none consuming_decM (decM_none_nondigit (by decide))]
          rw [← hY, ihh]
        · rw [mTok_dec hD, hY]
          have hm := decM_match (R := '_' :: c :: Y) hD hF
            (Or.inr ⟨c, Y, rfl, hcd.2.2⟩)
          match D, hD.1 with
          | d :: D', _ =>
            simp only [List.cons_append, List.append_assoc] at hm ⊢
            rw [scanRun_cons_some consuming_decM hm]
            rw [scanRun_cons_none consuming_decM (decM_none_nondigit (by decide))]
            rw [← hY, ihh]
            simp
      · rcases hsign with rfl | rfl
        · show scanRun decM
              ('+' :: '_' :: tokJoin (List.map mTok ((c :: u') :: rest'))) = _
          rw [scanRun_cons_none consuming_decM (decM_none_nondigit (by decide)),
            scanRun_cons_none consuming_decM (decM_none_nondigit (by decide)), ihh]
          rfl
        · show scanRun decM
              ('-' :: '_' :: tokJoin (List.map mTok ((c :: u') :: rest'))) = _
          rw [scanRun_cons_none consuming_decM (decM_none_nondigit (by decide)),
            scanRun_cons_none consuming_decM (decM_none_nondigit (by decide)), ihh]
          rfl

theorem signOkB_cons_nonsign {a : Char} {rest : List Char}
    (ha : ¬(a = '+' ∨ a = '-')) : signOkB (a :: rest) = signOkB rest := by
  show ((if a = '+' ∨ a = '-' then
      match rest with
      | '_' :: c :: _ => c.isDigit
      | _ => false
    else true) && signOkB rest) = signOkB rest
  rw [if_neg ha, Bool.true_and]

theorem signOkB_append_nonsign {t X : List Char}
    (ht : ∀ c ∈ t, ¬(c = '+' ∨ c = '-')) : signOkB (t ++ X) = signOkB X := by
  induction t with
  | nil => rfl
  | cons c t' ih =>
    rw [List.cons_append, signOkB_cons_nonsign (ht c (List.mem_cons_self c t')),
      ih fun c hc => ht c (List.mem_cons_of_mem _ hc)]

theorem numTok_nonsign {t : List Char} (h : NumTok t) :
    ∀ c ∈ t, ¬(c = '+' ∨ c = '-') := by
  intro c hc
  rcases numTok_chars h c hc with hd | rfl
  · rintro (rfl | rfl) <;> exact absurd hd (by decide)
  · rintro (h1 | h1) <;> cases h1

theorem tokJoin_cons_shape (c : Char) (u' : List Char) (rest : List (List Char)) :
    ∃ Z, tokJoin ((c :: u') :: rest) = c :: Z := by
  match rest with
  | [] => exact ⟨u', rfl⟩
  | v :: rest' => exact ⟨u' ++ '_' :: tokJoin (v :: rest'), rfl⟩

/-- Every sign in a well-formed token join is followed by `'_'` and a
digit, so no sign-pair fold can fire. -/
theorem signOkB_tokJoin {ts : List (List Char)} (h : OkSeq ts) :
    signOkB (tokJoin ts) = true := by
  induction ts with
  | nil => rfl
  | cons t rest ih =>
    match rest with
    | [] =>
      show signOkB t = true
      rcases h with hn | rfl
      · have h2 := signOkB_append_nonsign (X := []) (numTok_nonsign hn)
        simpa using h2
      · rfl
    | u :: rest' =>
      have htail : OkSeq (u :: rest') := h.2
      have ihh := ih htail
      show signOkB (t ++ '_' :: tokJoin (u :: rest')) = true
      rcases h.1 with ⟨hnum, hu⟩ | ⟨hsign, hnumu⟩
      · rw [signOkB_append_nonsign (numTok_nonsign hnum),
          signOkB_cons_nonsign (by rintro (h1 | h1) <;> cases h1)]
        exact ihh
      · obtain ⟨c, u', rfl⟩ : ∃ c u', u = c :: u' := by
          have := okSeq_tok_ne_nil htail u (by simp)
          match u, this with
          | c :: u', _ => exact ⟨c, u', rfl⟩
        have hc : c.isDigit = true := numTok_head_digit hnumu
        obtain ⟨Z, hZ⟩ := tokJoin_cons_shape c u' rest'
        rw [hZ]
        have hback : signOkB (c :: Z) = true := by
          rw [← hZ]
          exact ihh
        rcases hsign with rfl | rfl
        · show signOkB ('+' :: '_' :: c :: Z) = true
          unfold signOkB
          rw [if_pos (Or.inl rfl)]
          simp only [hc, Bool.true_and]
          rw [signOkB_cons_nonsign (by rintro (h1 | h1) <;> cases h1)]
          exact hback
        · show signOkB ('-' :: '_' :: c :: Z) = true
          unfold signOkB
          rw [if_pos (Or.inr rfl)]
          simp only [hc, Bool.true_and]
          rw [signOkB_cons_nonsign (by rintro (h1 | h1) <;> cases h1)]
          exact hback

theorem splitU_no_underscore {t : List Char} (hne : t ≠ []) (h : '_' ∉ t) :
    splitU t = [t] := by
  induction t with
  | nil => cases hne rfl
  | cons c t' ih =>
    have hc : ¬(c = '_') := fun hc => h (by simp [hc])
    match t' with
    | [] => simp [splitU, hc]
    | d :: t'' =>
      have hrec := ih (by simp) fun hm => h (List.mem_cons_of_mem _ hm)
      show (if c = '_' then [] :: splitU (d :: t'')
        else match splitU (d :: t'') with
          | piece :: rest => (c :: piece) :: rest
          | [] => [[c]]) = [c :: d :: t'']
      rw [if_neg hc, hrec]

theorem splitU_append {t R : List Char} (hne : t ≠ []) (h : '_' ∉ t) :
    splitU (t ++ '_' :: R) = t :: splitU R := by
  induction t with
  | nil => cases hne rfl
  | cons c t' ih =>
    have hc : ¬(c = '_') := fun hc => h (by simp [hc])
    match t' with
    | [] => simp [splitU, hc]
    | d :: t'' =>
      have hrec := ih (by simp) fun hm => h (List.mem_cons_of_mem _ hm)
      rw [List.cons_append]
      show (if c = '_' then [] :: splitU (d :: t'' ++ '_' :: R)
        else match splitU (d :: t'' ++ '_' :: R) with
          | piece :: rest => (c :: piece) :: rest
          | [] => [[c]]) = (c :: d :: t'') :: splitU R
      rw [if_neg hc, hrec]

theorem splitU_tokJoin {ts : List (List Char)} (h0 : ts ≠ [])
    (hne : ∀ t ∈ ts, t ≠ []) (hnu : ∀ t ∈ ts, '_' ∉ t) :
    splitU (tokJoin ts) = ts := by
  induction ts with
  | nil => cases h0 rfl
  | cons t rest ih =>
    match rest with
    | [] => exact splitU_no_underscore (hne t (by simp)) (hnu t (by simp))
    | u :: rest' =>
      show splitU (t ++ '_' :: tokJoin (u :: rest')) = _
      rw [splitU_append (hne t (by simp)) (hnu t (by simp)),
        ih (by simp) (fun t' ht' => hne t' (List.mem_cons_of_mem _ ht'))
          fun t' ht' => hnu t' (List.mem_cons_of_mem _ ht')]

theorem okSeq_chars {ts : List (List Char)} (h : OkSeq ts) :
    ∀ c ∈ tokJoin (ts.map (List.intersperse '_')), GoodChar c ∨ c = '_' := by
  intro c hc
  rcases tokJoin_mem hc with rfl | ⟨t', ht', hc'⟩
  · exact Or.inr rfl
  · obtain ⟨t, ht, rfl⟩ := List.mem_map.mp ht'
    rcases mem_intersperse hc' with rfl | hc''
    · exact Or.inr rfl
    · exact Or.inl (okSeq_goodChar h t ht c hc'')

theorem okSeq_chars2 {ts : List (List Char)} (h : OkSeq ts) :
    ∀ c ∈ tokJoin ts, GoodChar c ∨ c = '_' := by
  intro c hc
  rcases tokJoin_mem hc with rfl | ⟨t, ht, hc'⟩
  · exact Or.inr rfl
  · exact Or.inl (okSeq_goodChar h t ht c hc')

theorem goodChar_notin {c0 : Char} (hg : ¬ GoodChar c0) (hu : c0 ≠ '_')
    {S : List Char} (hS : ∀ c ∈ S, GoodChar c ∨ c = '_') : c0 ∉ S := by
  intro hmem
  rcases hS c0 hmem with h | h
  · exact hg h
  · exact hu h

/-- The normalization pipeline on a concatenation of well-formed tokens
returns exactly those tokens. -/
theorem tokenize_ok {ts : List (List Char)} (h : OkSeq ts) (h0 : ts ≠ []) :
    tokenize (String.mk ts.flatten) = ts.map (fun cs => String.mk cs) := by
  have hne := okSeq_tok_ne_nil h
  have hflat : ∀ c ∈ ts.flatten, GoodChar c := by
    intro c hc
    obtain ⟨t, ht, hc'⟩ := List.mem_flatten.mp hc
    exact okSeq_goodChar h t ht c hc'
  have hCh1 := okSeq_chars h
  have hCh2 := okSeq_chars2 h
  simp only [tokenize]
  rw [jsTrim_id (fun c hc => by
    have hg := hflat c hc
    simp only [GoodChar] at hg
    rcases hg with hd | rfl | rfl | rfl | rfl
    · refine ⟨?_, ?_, ?_, ?_⟩ <;> (rintro rfl; exact absurd hd (by decide))
    all_goals exact ⟨by decide, by decide, by decide, by decide⟩)]
  rw [intersperse_flatten h0 hne]
  rw [map_id_of (fun c hc => goodChar_toLower (hCh1 c hc))]
  rw [scanRun_spaceM_id
    (goodChar_notin (by simp only [GoodChar]; decide) (by decide) hCh1)]
  rw [dmLoop_eq _ _ (Nat.lt_succ_self _)]
  rw [fm_tokJoin h]
  rw [dec_tokJoin h]
  rw [scanRun_litM_id (show (['*', '_', '*'] : List Char).head? = some '*' from rfl)
    (goodChar_notin (by simp only [GoodChar]; decide) (by decide) hCh2)]
  rw [scanRun_litM_id (show (['π'] : List Char).head? = some 'π' from rfl)
    (goodChar_notin (by simp only [GoodChar]; decide) (by decide) hCh2)]
  rw [scanRun_litM_id (show (['p', '_', 'i'] : List Char).head? = some 'p' from rfl)
    (goodChar_notin (by simp only [GoodChar]; decide) (by decide) hCh2)]
  rw [map_id_of (fun c hc => by
    have hni : c ≠ 'i' := by
      rcases hCh2 c hc with hg | rfl
      · simp only [GoodChar] at hg
        rcases hg with hd | rfl | rfl | rfl | rfl
        · rintro rfl; exact absurd hd (by decide)
        all_goals decide
      · decide
    simp [hni])]
  have hsgn := signOkB_tokJoin h
  rw [scanRun_signfold_id (Or.inr rfl) (by decide) hsgn]
  rw [scanRun_signfold_id (Or.inl rfl) (by decide) hsgn]
  rw [scanRun_signfold_id (Or.inl rfl) (by decide) hsgn]
  rw [scanRun_signfold_id (Or.inr rfl) (by decide) hsgn]
  rw [scanRun_expM_id
    (goodChar_notin (by simp only [GoodChar]; decide) (by decide) hCh2)]
  rw [scanRun_lnM_id
    (goodChar_notin (by simp only [GoodChar]; decide) (by decide) hCh2)]
  rw [splitU_tokJoin h0 hne (fun t ht hu => by
    have hg := okSeq_goodChar h t ht '_' hu
    simp only [GoodChar] at hg
    exact absurd hg (by decide))]
  rw [List.filter_eq_self.mpr (fun t ht => by simp [hne t ht])]

/-! ## Parsing the rendered token sequences (C6) -/

theorem parseNum_op_none :
    parseNum "+" = none ∧ parseNum "-" = none ∧ parseNum " " = none ∧
    parseNum "*" = none ∧ parseNum "/" = none ∧ parseNum "^" = none ∧
    parseNum "(" = none ∧ parseNum ")" = none ∧ parseNum "j" = none := by
  refine ⟨rfl, rfl, rfl, rfl, rfl, rfl, rfl, rfl, rfl⟩

theorem parseNum_ne {t : String} {v : ℚ} (h : parseNum t = some v) :
    t ≠ "+" ∧ t ≠ "-" ∧ t ≠ " " ∧ t ≠ "*" ∧ t ≠ "/" ∧ t ≠ "^" ∧
    t ≠ "(" ∧ t ≠ ")" ∧ t ≠ "j" := by
  obtain ⟨h1, h2, h3, h4, h5, h6, h7, h8, h9⟩ := parseNum_op_none
  refine ⟨?_, ?_, ?_, ?_, ?_, ?_, ?_, ?_, ?_⟩ <;>
    (rintro rfl; simp_all)

theorem parseNum_zero : parseNum "0" = some 0 := by
  have h := pn_digits (D := ['0']) ⟨by simp, by decide⟩
  have h2 : parseDigits ['0'] = 0 := by decide
  rw [h2] at h
  simpa [parseNum] using h

/-- `read_expression` on a sole numeric token. -/
theorem RE_num_nil {O : RealOps} {f : ℕ} {t : String} {v : ℚ}
    (ha : parseNum t = some v) :
    readExpr O (f + 1) [t] = .ok (cx1 v, []) := by
  obtain ⟨h1, h2, h3, h4, h5, h6, h7, h8, h9⟩ := parseNum_ne ha
  simp [readExpr, List.dropWhile_cons, h3, ha, isEndTok]

/-- `read_expression` on a numeric token followed by `j` at the end. -/
theorem RE_num_j {O : RealOps} {f : ℕ} {t : String} {v : ℚ}
    (ha : parseNum t = some v) :
    readExpr O (f + 2) [t, "j"] = .ok (⟨0, v⟩, []) := by
  obtain ⟨h1, h2, h3, h4, h5, h6, h7, h8, h9⟩ := parseNum_ne ha
  have hj : readExpr O (f + 1) ["j"] = .ok (⟨0, 1⟩, []) := by
    simp [readExpr, List.dropWhile_cons, parseNum_op_none.2.2.2.2.2.2.2.2, isEndTok]
  have hstep : (f + 2) - 1 = f + 1 := by omega
  simp [readExpr, List.dropWhile_cons, h3, ha, isEndTok, hstep, hj, bind, Except.bind,
    Cx.mul, Cx.mulGo, mkC]
  simp only [cx1]
  split <;> simp_all

/-- `read_expression` on a numeric token with a following `+`. -/
theorem RE_num_plus {O : RealOps} {f : ℕ} {t : String} {v : ℚ} (rest : List String)
    (ha : parseNum t = some v) :
    readExpr O (f + 1) (t :: "+" :: rest) = .ok (cx1 v, "+" :: rest) := by
  obtain ⟨h1, h2, h3, h4, h5, h6, h7, h8, h9⟩ := parseNum_ne ha
  match rest with
  | [] => simp [readExpr, List.dropWhile_cons, h3, ha, isEndTok]
  | [x] => simp [readExpr, List.dropWhile_cons, h3, ha, isEndTok]
  | x :: y :: r => simp [readExpr, List.dropWhile_cons, h3, ha, isEndTok]

/-- `read_expression` on a numeric token with a following `-`. -/
theorem RE_num_minus {O : RealOps} {f : ℕ} {t : String} {v : ℚ} (rest : List String)
    (ha : parseNum t = some v) :
    readExpr O (f + 1) (t :: "-" :: rest) = .ok (cx1 v, "-" :: rest) := by
  obtain ⟨h1, h2, h3, h4, h5, h6, h7, h8, h9⟩ := parseNum_ne ha
  match rest with
  | [] => simp [readExpr, List.dropWhile_cons, h3, ha, isEndTok]
  | [x] => simp [readExpr, List.dropWhile_cons, h3, ha, isEndTok]
  | x :: y :: r => simp [readExpr, List.dropWhile_cons, h3, ha, isEndTok]

/-- `read_exponentiation` passes through when no `^` follows. -/
theorem RP_of {O : RealOps} {f : ℕ} {l : List String} {c : Cx} {r : List String}
    (h : readExpr O f l = .ok (c, r))
    (hr : r = [] ∨ (∃ r', r = "+" :: r') ∨ (∃ r', r = "-" :: r')) :
    readPow O (f + 1) l = .ok (c, r) := by
  rcases hr with rfl | ⟨r', rfl⟩ | ⟨r', rfl⟩ <;>
    simp [readPow, h, bind, Except.bind, List.dropWhile_cons]

/-- `read_multiplication` passes through when no further token can extend
the product. -/
theorem RM_of {O : RealOps} {f : ℕ} {l : List String} {c : Cx} {r : List String}
    (h : readPow O f l = .ok (c, r))
    (hr : r = [] ∨ (∃ r', r = "+" :: r') ∨ (∃ r', r = "-" :: r')) :
    readMul O (f + 1) l = .ok (c, r) := by
  rcases hr with rfl | ⟨r', rfl⟩ | ⟨r', rfl⟩ <;>
    simp [readMul, h, bind, Except.bind, List.dropWhile_cons, isEndTok]

theorem RM_num_nil {O : RealOps} {f : ℕ} {t : String} {v : ℚ}
    (ha : parseNum t = some v) :
    readMul O (f + 3) [t] = .ok (cx1 v, []) := by
  exact RM_of (RP_of (RE_num_nil ha) (Or.inl rfl)) (Or.inl rfl)

theorem RM_num_j {O : RealOps} {f : ℕ} {t : String} {v : ℚ}
    (ha : parseNum t = some v) :
    readMul O (f + 4) [t, "j"] = .ok (⟨0, v⟩, []) := by
  exact RM_of (RP_of (RE_num_j ha) (Or.inl rfl)) (Or.inl rfl)

theorem RM_num_plus {O : RealOps} {f : ℕ} {t : String} {v : ℚ} {rest : List String}
    (ha : parseNum t = some v) :
    readMul O (f + 3) (t :: "+" :: rest) = .ok (cx1 v, "+" :: rest) := by
  exact RM_of (RP_of (RE_num_plus rest ha) (Or.inr (Or.inl ⟨rest, rfl⟩)))
    (Or.inr (Or.inl ⟨rest, rfl⟩))

theorem RM_num_minus {O : RealOps} {f : ℕ} {t : String} {v : ℚ} {rest : List String}
    (ha : parseNum t = some v) :
    readMul O (f + 3) (t :: "-" :: rest) = .ok (cx1 v, "-" :: rest) := by
  exact RM_of (RP_of (RE_num_minus rest ha) (Or.inr (Or.inr ⟨rest, rfl⟩)))
    (Or.inr (Or.inr ⟨rest, rfl⟩))

/-- `read_addition` on a sole numeric token. -/
theorem RA_nil {O : RealOps} {f : ℕ} {t : String} {v : ℚ}
    (ha : parseNum t = some v) :
    readAdd O (f + 4) [t] = .ok (cx1 v, []) := by
  obtain ⟨h1, h2, h3, h4, h5, h6, h7, h8, h9⟩ := parseNum_ne ha
  have hm : readMul O (f + 3) [t] = .ok (cx1 v, []) := RM_num_nil ha
  simp [readAdd, List.dropWhile_cons, h1, h2, h3, hm, bind, Except.bind]

/-- `read_addition` on a pure imaginary literal. -/
theorem RA_j {O : RealOps} {f : ℕ} {t : String} {v : ℚ}
    (ha : parseNum t = some v) :
    readAdd O (f + 5) [t, "j"] = .ok (⟨0, v⟩, []) := by
  obtain ⟨h1, h2, h3, h4, h5, h6, h7, h8, h9⟩ := parseNum_ne ha
  have hm : readMul O (f + 4) [t, "j"] = .ok (⟨0, v⟩, []) := RM_num_j ha
  simp [readAdd, List.dropWhile_cons, h1, h2, h3, hm, bind, Except.bind]

/-- `read_addition` on `a + bj`. -/
theorem RA_plus_j {O : RealOps} {f : ℕ} {ta tb : String} {va vb : ℚ}
    (ha : parseNum ta = some va) (hb : parseNum tb = some vb) :
    readAdd O (f + 6) [ta, "+", tb, "j"] = .ok (⟨va, vb⟩, []) := by
  obtain ⟨h1, h2, h3, h4, h5, h6, h7, h8, h9⟩ := parseNum_ne ha
  have hm : readMul O (f + 5) (ta :: "+" :: [tb, "j"]) =
      .ok (cx1 va, "+" :: [tb, "j"]) := RM_num_plus ha
  have hr : readAdd O (f + 5) [tb, "j"] = .ok (⟨0, vb⟩, []) := RA_j hb
  simp [readAdd, List.dropWhile_cons, h1, h2, h3, hm, hr, bind, Except.bind,
    Cx.add, cx1]

/-- `read_addition` on `a - bj`. -/
theorem RA_minus_j {O : RealOps} {f : ℕ} {ta tb : String} {va vb : ℚ}
    (ha : parseNum ta = some va) (hb : parseNum tb = some vb) :
    readAdd O (f + 6) [ta, "-", tb, "j"] = .ok (⟨va, -vb⟩, []) := by
  obtain ⟨h1, h2, h3, h4, h5, h6, h7, h8, h9⟩ := parseNum_ne ha
  have hm : readMul O (f + 5) (ta :: "-" :: [tb, "j"]) =
      .ok (cx1 va, "-" :: [tb, "j"]) := RM_num_minus ha
  have hr : readMul O (f + 5) [tb, "j"] = .ok (⟨0, vb⟩, []) := RM_num_j hb
  simp [readAdd, List.dropWhile_cons, h1, h2, h3, hm, hr, bind, Except.bind,
    Cx.sub, cx1]

theorem niceround_zero' : niceround (0 : ℚ) = ['0'] := by
  rw [niceround_nonneg le_rfl, posr_zero, litOfNat_zero]

/-- The token re-injected by `read_addition` for a negative rounded real
value parses back to that value. -/
theorem toStr_inject (n : ℕ) :
    parseNum (String.mk (Cx.toStr ⟨-((n : ℚ) / 10 ^ 12), 0⟩)) =
      some (-((n : ℚ) / 10 ^ 12)) := by
  by_cases hn : n = 0
  · subst hn
    rw [show (-(((0 : ℕ) : ℚ) / 10 ^ 12)) = 0 by norm_num]
    simp only [Cx.toStr, niceround_zero']
    simp
    exact parseNum_zero
  · have hpos : (0 : ℚ) < (n : ℚ) / 10 ^ 12 := by
      have : (0 : ℚ) < n := by exact_mod_cast Nat.pos_of_ne_zero hn
      positivity
    have hq : -((n : ℚ) / 10 ^ 12) < 0 := by linarith
    simp only [Cx.toStr, niceround_zero']
    rw [niceround_neg hq]
    rw [show -(-((n : ℚ) / 10 ^ 12)) = (n : ℚ) / 10 ^ 12 by ring, posr_div]
    simp
    exact pn_neg_litOfNat n

/-- `read_addition` on `-a`: the bracket level prefixes `"0"`. -/
theorem RA_neg_nil {O : RealOps} {f : ℕ} {ta : String} {va : ℚ}
    (ha : parseNum ta = some va) :
    readAdd O (f + 4) ["0", "-", ta] = .ok (⟨-va, 0⟩, []) := by
  have hm : readMul O (f + 3) ("0" :: "-" :: [ta]) = .ok (cx1 0, "-" :: [ta]) :=
    RM_num_minus parseNum_zero
  have hr : readMul O (f + 3) [ta] = .ok (cx1 va, []) := RM_num_nil ha
  simp [readAdd, List.dropWhile_cons, hm, hr, bind, Except.bind, Cx.sub, cx1]

/-- `read_addition` on `-aj`. -/
theorem RA_neg_j {O : RealOps} {f : ℕ} {ta : String} {va : ℚ}
    (ha : parseNum ta = some va) :
    readAdd O (f + 5) ["0", "-", ta, "j"] = .ok (⟨0, -va⟩, []) := by
  have hm : readMul O (f + 4) ("0" :: "-" :: [ta, "j"]) =
      .ok (cx1 0, "-" :: [ta, "j"]) := RM_num_minus parseNum_zero
  have hr : readMul O (f + 4) [ta, "j"] = .ok (⟨0, va⟩, []) := RM_num_j ha
  simp [readAdd, List.dropWhile_cons, hm, hr, bind, Except.bind, Cx.sub, cx1]

/-- `read_addition` on `-a+bj`: the re-injected rounded token keeps the
value exact. -/
theorem RA_neg_plus_j {O : RealOps} {f : ℕ} {ta tb : String} {n : ℕ} {vb : ℚ}
    (ha : parseNum ta = some ((n : ℚ) / 10 ^ 12)) (hb : parseNum tb = some vb) :
    readAdd O (f + 7) ["0", "-", ta, "+", tb, "j"] =
      .ok (⟨-((n : ℚ) / 10 ^ 12), vb⟩, []) := by
  have hm : readMul O (f + 6) ("0" :: "-" :: [ta, "+", tb, "j"]) =
      .ok (cx1 0, "-" :: [ta, "+", tb, "j"]) := RM_num_minus parseNum_zero
  have hr : readMul O (f + 6) (ta :: "+" :: [tb, "j"]) =
      .ok (cx1 ((n : ℚ) / 10 ^ 12), "+" :: [tb, "j"]) := RM_num_plus ha
  have hsub : Cx.sub (cx1 0) [cx1 ((n : ℚ) / 10 ^ 12)] =
      ⟨-((n : ℚ) / 10 ^ 12), 0⟩ := by
    simp [Cx.sub, cx1]
  have hinner : readAdd O (f + 6)
      (String.mk (Cx.toStr ⟨-((n : ℚ) / 10 ^ 12), 0⟩) :: "+" :: [tb, "j"]) =
      .ok (⟨-((n : ℚ) / 10 ^ 12), vb⟩, []) := RA_plus_j (toStr_inject n) hb
  simp [readAdd, List.dropWhile_cons, hm, hr, hsub, hinner, bind, Except.bind]

/-- `read_addition` on `-a-bj`. -/
theorem RA_neg_minus_j {O : RealOps} {f : ℕ} {ta tb : String} {n : ℕ} {vb : ℚ}
    (ha : parseNum ta = some ((n : ℚ) / 10 ^ 12)) (hb : parseNum tb = some vb) :
    readAdd O (f + 7) ["0", "-", ta, "-", tb, "j"] =
      .ok (⟨-((n : ℚ) / 10 ^ 12), -vb⟩, []) := by
  have hm : readMul O (f + 6) ("0" :: "-" :: [ta, "-", tb, "j"]) =
      .ok (cx1 0, "-" :: [ta, "-", tb, "j"]) := RM_num_minus parseNum_zero
  have hr : readMul O (f + 6) (ta :: "-" :: [tb, "j"]) =
      .ok (cx1 ((n : ℚ) / 10 ^ 12), "-" :: [tb, "j"]) := RM_num_minus ha
  have hsub : Cx.sub (cx1 0) [cx1 ((n : ℚ) / 10 ^ 12)] =
      ⟨-((n : ℚ) / 10 ^ 12), 0⟩ := by
    simp [Cx.sub, cx1]
  have hinner : readAdd O (f + 6)
      (String.mk (Cx.toStr ⟨-((n : ℚ) / 10 ^ 12), 0⟩) :: "-" :: [tb, "j"]) =
      .ok (⟨-((n : ℚ) / 10 ^ 12), -vb⟩, []) := RA_minus_j (toStr_inject n) hb
  simp [readAdd, List.dropWhile_cons, hm, hr, hsub, hinner, bind, Except.bind]

/-- `read_bracket_contents` on a numeric-headed token sequence that the
addition level consumes entirely. -/
theorem RB_num {O : RealOps} {f : ℕ} {t : String} {v : ℚ} {rest : List String}
    {z : Cx} (ht : parseNum t = some v)
    (h : readAdd O f (t :: rest) = .ok (z, [])) :
    readBracket O (f + 1) (t :: rest) = .ok (z, []) := by
  obtain ⟨h1, h2, h3, h4, h5, h6, h7, h8, h9⟩ := parseNum_ne ht
  simp [readBracket, List.dropWhile_cons, h1, h2, h3, h8, h, bind, Except.bind]

/-- `read_bracket_contents` on a minus-headed sequence: a `"0"` token is
prefixed before the addition level runs. -/
theorem RB_neg {O : RealOps} {f : ℕ} {rest : List String} {z : Cx}
    (h : readAdd O f ("0" :: "-" :: rest) = .ok (z, [])) :
    readBracket O (f + 1) ("-" :: rest) = .ok (z, []) := by
  simp [readBracket, List.dropWhile_cons, h, bind, Except.bind]

theorem EV_pos_nil {O : RealOps} {s : String} {ta : String} {va : ℚ}
    (hp : tokenize s = [ta]) (ha : parseNum ta = some va) :
    evalStr O s = .ok ⟨va, 0⟩ := by
  have hb : readBracket O 80 [ta] = .ok (⟨va, 0⟩, []) :=
    RB_num (f := 79) ha (RA_nil (f := 75) ha)
  simp [evalStr, hp, hb, bind, Except.bind]

theorem EV_neg_nil {O : RealOps} {s : String} {ta : String} {va : ℚ}
    (hp : tokenize s = ["-", ta]) (ha : parseNum ta = some va) :
    evalStr O s = .ok ⟨-va, 0⟩ := by
  have hb : readBracket O 96 ["-", ta] = .ok (⟨-va, 0⟩, []) :=
    RB_neg (f := 95) (RA_neg_nil (f := 91) ha)
  simp [evalStr, hp, hb, bind, Except.bind]

theorem EV_pos_j {O : RealOps} {s : String} {ta : String} {va : ℚ}
    (hp : tokenize s = [ta, "j"]) (ha : parseNum ta = some va) :
    evalStr O s = .ok ⟨0, va⟩ := by
  have hb : readBracket O 96 [ta, "j"] = .ok (⟨0, va⟩, []) :=
    RB_num (f := 95) ha (RA_j (f := 90) ha)
  simp [evalStr, hp, hb, bind, Except.bind]

theorem EV_neg_j {O : RealOps} {s : String} {ta : String} {va : ℚ}
    (hp : tokenize s = ["-", ta, "j"]) (ha : parseNum ta = some va) :
    evalStr O s = .ok ⟨0, -va⟩ := by
  have hb : readBracket O 112 ["-", ta, "j"] = .ok (⟨0, -va⟩, []) :=
    RB_neg (f := 111) (RA_neg_j (f := 106) ha)
  simp [evalStr, hp, hb, bind, Except.bind]

theorem EV_pos_plus {O : RealOps} {s : String} {ta tb : String} {va vb : ℚ}
    (hp : tokenize s = [ta, "+", tb, "j"]) (ha : parseNum ta = some va)
    (hb : parseNum tb = some vb) :
    evalStr O s = .ok ⟨va, vb⟩ := by
  have hB : readBracket O 128 [ta, "+", tb, "j"] = .ok (⟨va, vb⟩, []) :=
    RB_num (f := 127) ha (RA_plus_j (f := 121) ha hb)
  simp [evalStr, hp, hB, bind, Except.bind]

theorem EV_pos_minus {O : RealOps} {s : String} {ta tb : String} {va vb : ℚ}
    (hp : tokenize s = [ta, "-", tb, "j"]) (ha : parseNum ta = some va)
    (hb : parseNum tb = some vb) :
    evalStr O s = .ok ⟨va, -vb⟩ := by
  have hB : readBracket O 128 [ta, "-", tb, "j"] = .ok (⟨va, -vb⟩, []) :=
    RB_num (f := 127) ha (RA_minus_j (f := 121) ha hb)
  simp [evalStr, hp, hB, bind, Except.bind]

theorem EV_neg_plus {O : RealOps} {s : String} {ta tb : String} {n : ℕ} {vb : ℚ}
    (hp : tokenize s = ["-", ta, "+", tb, "j"])
    (ha : parseNum ta = some ((n : ℚ) / 10 ^ 12)) (hb : parseNum tb = some vb) :
    evalStr O s = .ok ⟨-((n : ℚ) / 10 ^ 12), vb⟩ := by
  have hB : readBracket O 144 ["-", ta, "+", tb, "j"] =
      .ok (⟨-((n : ℚ) / 10 ^ 12), vb⟩, []) :=
    RB_neg (f := 143) (RA_neg_plus_j (f := 136) ha hb)
  simp [evalStr, hp, hB, bind, Except.bind]

theorem EV_neg_minus {O : RealOps} {s : String} {ta tb : String} {n : ℕ} {vb : ℚ}
    (hp : tokenize s = ["-", ta, "-", tb, "j"])
    (ha : parseNum ta = some ((n : ℚ) / 10 ^ 12)) (hb : parseNum tb = some vb) :
    evalStr O s = .ok ⟨-((n : ℚ) / 10 ^ 12), -vb⟩ := by
  have hB : readBracket O 144 ["-", ta, "-", tb, "j"] =
      .ok (⟨-((n : ℚ) / 10 ^ 12), -vb⟩, []) :=
    RB_neg (f := 143) (RA_neg_minus_j (f := 136) ha hb)
  simp [evalStr, hp, hB, bind, Except.bind]

/-! ## Assembling the round trip (C6) -/

theorem litOfNat_append_j_ne_zero {n : ℕ} (hn : n ≠ 0) :
    litOfNat n ++ ['j'] ≠ ['0', 'j'] := by
  intro h
  have h2 : litOfNat n ++ ['j'] = ['0'] ++ ['j'] := h
  exact hn (litOfNat_eq_zero_iff.mp ((List.append_left_inj ['j']).mp h2))

theorem litOfNat_append_j_ne_negzero (n : ℕ) :
    litOfNat n ++ ['j'] ≠ ['-', '0', 'j'] := by
  intro h
  have h2 : litOfNat n ++ ['j'] = ['-', '0'] ++ ['j'] := h
  have h3 := (List.append_left_inj ['j']).mp h2
  have h4 := numTok_head_digit (h3 ▸ numTok_litOfNat n)
  exact absurd h4 (by decide)

theorem neg_lit_ne_zero (l : List Char) : ('-' :: l : List Char) ≠ ['0'] := by
  intro h
  injection h with h1 _
  exact absurd h1 (by decide)

theorem neg_lit_j_ne_zero (l : List Char) : ('-' :: l) ++ ['j'] ≠ ['0', 'j'] := by
  intro h
  rw [List.cons_append] at h
  injection h with h1 _
  exact absurd h1 (by decide)

theorem neg_lit_j_ne_negzero {n : ℕ} (hn : n ≠ 0) :
    ('-' :: litOfNat n) ++ ['j'] ≠ ['-', '0', 'j'] := by
  intro h
  rw [List.cons_append] at h
  injection h with h1 h2
  have h3 : litOfNat n ++ ['j'] = ['0'] ++ ['j'] := h2
  exact hn (litOfNat_eq_zero_iff.mp ((List.append_left_inj ['j']).mp h3))

theorem r12_zero_of_nonneg {b : ℚ} (hb : ¬b < 0) (h0 : posr b = 0) : r12 b = 0 := by
  rw [r12_nonneg (not_lt.mp hb), h0]
  norm_num

theorem r12_zero_of_neg {b : ℚ} (hb : b < 0) (h0 : posr (-b) = 0) : r12 b = 0 := by
  rw [r12_neg hb, h0]
  norm_num

/-- Round trip when the imaginary part renders as zero: the output is the
real rendering alone. -/
theorem C6_real_only {O : RealOps} {a b : ℚ} (hb0 : r12 b = 0)
    (htostr : Cx.toStr ⟨a, b⟩ = niceround a) :
    evalStr O (String.mk (Cx.toStr ⟨a, b⟩)) = .ok ⟨r12 a, r12 b⟩ := by
  by_cases ha : a < 0
  · have hstr : Cx.toStr ⟨a, b⟩ = List.flatten [['-'], litOfNat (posr (-a))] := by
      rw [htostr, niceround_neg ha]
      simp
    have hok : OkSeq [['-'], litOfNat (posr (-a))] :=
      ⟨Or.inr ⟨Or.inr rfl, numTok_litOfNat _⟩, Or.inl (numTok_litOfNat _)⟩
    have hp := tokenize_ok hok (by simp)
    rw [← hstr] at hp
    simp only [List.map_cons, List.map_nil] at hp
    rw [show String.mk ['-'] = "-" from rfl] at hp
    rw [EV_neg_nil hp (pn_litOfNat (posr (-a)))]
    rw [r12_neg ha, hb0]
  · have hstr : Cx.toStr ⟨a, b⟩ = List.flatten [litOfNat (posr a)] := by
      rw [htostr, niceround_nonneg (not_lt.mp ha)]
      simp
    have hok : OkSeq [litOfNat (posr a)] := Or.inl (numTok_litOfNat _)
    have hp := tokenize_ok hok (by simp)
    rw [← hstr] at hp
    simp only [List.map_cons, List.map_nil] at hp
    rw [EV_pos_nil hp (pn_litOfNat (posr a))]
    rw [r12_nonneg (not_lt.mp ha), hb0]

/-- C6 (confirmed, exact-rational model).  For every `Math` builtin
choice and all rational components `a`, `b`, evaluating the default
string rendering of `Complex(a, b)` succeeds and returns exactly the
12-decimal-place rounding `(r12 a, r12 b)` of the value, which is within
`1/(2·10^12)` of the original in each component: the round trip through
`toString` and `eval` recovers the value up to the rendering precision. -/
theorem C6_roundtrip (O : RealOps) (a b : ℚ) :
    evalStr O (String.mk (Cx.toStr ⟨a, b⟩)) = .ok ⟨r12 a, r12 b⟩ ∧
      |r12 a - a| ≤ 1 / (2 * 10 ^ 12) ∧ |r12 b - b| ≤ 1 / (2 * 10 ^ 12) := by
  refine ⟨?_, r12_err a, r12_err b⟩
  by_cases hbneg : b < 0
  · by_cases hbz : posr (-b) = 0
    · refine C6_real_only (r12_zero_of_neg hbneg hbz) ?_
      simp only [Cx.toStr]
      rw [niceround_neg hbneg, hbz, litOfNat_zero]
      rw [if_neg (by simp)]
    · have hcond : ('-' :: litOfNat (posr (-b))) ++ ['j'] ≠ ['0', 'j'] ∧
          ('-' :: litOfNat (posr (-b))) ++ ['j'] ≠ ['-', '0', 'j'] :=
        ⟨neg_lit_j_ne_zero _, neg_lit_j_ne_negzero hbz⟩
      by_cases haneg : a < 0
      · have htostr : Cx.toStr ⟨a, b⟩ = ('-' :: litOfNat (posr (-a))) ++
            (('-' :: litOfNat (posr (-b))) ++ ['j']) := by
          simp only [Cx.toStr]
          rw [niceround_neg hbneg, niceround_neg haneg]
          rw [if_pos hcond, if_pos (neg_lit_ne_zero _), if_neg (not_le.mpr hbneg)]
        have hstr : Cx.toStr ⟨a, b⟩ = List.flatten
            [['-'], litOfNat (posr (-a)), ['-'], litOfNat (posr (-b)), ['j']] := by
          rw [htostr]
          simp
        have hok : OkSeq
            [['-'], litOfNat (posr (-a)), ['-'], litOfNat (posr (-b)), ['j']] :=
          ⟨Or.inr ⟨Or.inr rfl, numTok_litOfNat _⟩,
            Or.inl ⟨numTok_litOfNat _, Or.inr (Or.inl rfl)⟩,
            Or.inr ⟨Or.inr rfl, numTok_litOfNat _⟩,
            Or.inl ⟨numTok_litOfNat _, Or.inr (Or.inr rfl)⟩, Or.inr rfl⟩
        have hp := tokenize_ok hok (by simp)
        rw [← hstr] at hp
        simp only [List.map_cons, List.map_nil] at hp
        rw [show String.mk ['-'] = "-" from rfl,
          show String.mk ['j'] = "j" from rfl] at hp
        rw [EV_neg_minus hp (pn_litOfNat _) (pn_litOfNat _)]
        rw [r12_neg haneg, r12_neg hbneg]
      · by_cases haz : posr a = 0
        · have htostr : Cx.toStr ⟨a, b⟩ =
              ('-' :: litOfNat (posr (-b))) ++ ['j'] := by
            simp only [Cx.toStr]
            rw [niceround_neg hbneg, niceround_nonneg (not_lt.mp haneg), haz,
              litOfNat_zero]
            rw [if_pos hcond, if_neg (by simp)]
          have hstr : Cx.toStr ⟨a, b⟩ = List.flatten
              [['-'], litOfNat (posr (-b)), ['j']] := by
            rw [htostr]
            simp
          have hok : OkSeq [['-'], litOfNat (posr (-b)), ['j']] :=
            ⟨Or.inr ⟨Or.inr rfl, numTok_litOfNat _⟩,
              Or.inl ⟨numTok_litOfNat _, Or.inr (Or.inr rfl)⟩, Or.inr rfl⟩
          have hp := tokenize_ok hok (by simp)
          rw [← hstr] at hp
          simp only [List.map_cons, List.map_nil] at hp
          rw [show String.mk ['-'] = "-" from rfl,
            show String.mk ['j'] = "j" from rfl] at hp
          rw [EV_neg_j hp (pn_litOfNat _)]
          rw [r12_zero_of_nonneg haneg haz, r12_neg hbneg]
        · have htostr : Cx.toStr ⟨a, b⟩ = litOfNat (posr a) ++
              (('-' :: litOfNat (posr (-b))) ++ ['j']) := by
            simp only [Cx.toStr]
            rw [niceround_neg hbneg, niceround_nonneg (not_lt.mp haneg)]
            rw [if_pos hcond,
              if_pos (fun h => haz (litOfNat_eq_zero_iff.mp h)),
              if_neg (not_le.mpr hbneg)]
          have hstr : Cx.toStr ⟨a, b⟩ = List.flatten
              [litOfNat (posr a), ['-'], litOfNat (posr (-b)), ['j']] := by
            rw [htostr]
            simp
          have hok : OkSeq
              [litOfNat (posr a), ['-'], litOfNat (posr (-b)), ['j']] :=
            ⟨Or.inl ⟨numTok_litOfNat _, Or.inr (Or.inl rfl)⟩,
              Or.inr ⟨Or.inr rfl, numTok_litOfNat _⟩,
              Or.inl ⟨numTok_litOfNat _, Or.inr (Or.inr rfl)⟩, Or.inr rfl⟩
          have hp := tokenize_ok hok (by simp)
          rw [← hstr] at hp
          simp only [List.map_cons, List.map_nil] at hp
          rw [show String.mk ['-'] = "-" from rfl,
            show String.mk ['j'] = "j" from rfl] at hp
          rw [EV_pos_minus hp (pn_litOfNat _) (pn_litOfNat _)]
          rw [r12_nonneg (not_lt.mp haneg), r12_neg hbneg]
  · by_cases hbz : posr b = 0
    · refine C6_real_only (r12_zero_of_nonneg hbneg hbz) ?_
      simp only [Cx.toStr]
      rw [niceround_nonneg (not_lt.mp hbneg), hbz, litOfNat_zero]
      rw [if_neg (by simp)]
    · have hcond : litOfNat (posr b) ++ ['j'] ≠ ['0', 'j'] ∧
          litOfNat (posr b) ++ ['j'] ≠ ['-', '0', 'j'] :=
        ⟨litOfNat_append_j_ne_zero hbz, litOfNat_append_j_ne_negzero _⟩
      by_cases haneg : a < 0
      · have htostr : Cx.toStr ⟨a, b⟩ = ('-' :: litOfNat (posr (-a))) ++
            ('+' :: (litOfNat (posr b) ++ ['j'])) := by
          simp only [Cx.toStr]
          rw [niceround_nonneg (not_lt.mp hbneg), niceround_neg haneg]
          rw [if_pos hcond, if_pos (neg_lit_ne_zero _), if_pos (not_lt.mp hbneg)]
        have hstr : Cx.toStr ⟨a, b⟩ = List.flatten
            [['-'], litOfNat (posr (-a)), ['+'], litOfNat (posr b), ['j']] := by
          rw [htostr]
          simp
        have hok : OkSeq
            [['-'], litOfNat (posr (-a)), ['+'], litOfNat (posr b), ['j']] :=
          ⟨Or.inr ⟨Or.inr rfl, numTok_litOfNat _⟩,
            Or.inl ⟨numTok_litOfNat _, Or.inl rfl⟩,
            Or.inr ⟨Or.inl rfl, numTok_litOfNat _⟩,
            Or.inl ⟨numTok_litOfNat _, Or.inr (Or.inr rfl)⟩, Or.inr rfl⟩
        have hp := tokenize_ok hok (by simp)
        rw [← hstr] at hp
        simp only [List.map_cons, List.map_nil] at hp
        rw [show String.mk ['-'] = "-" from rfl,
          show String.mk ['+'] = "+" from rfl,
          show String.mk ['j'] = "j" from rfl] at hp
        rw [EV_neg_plus hp (pn_litOfNat _) (pn_litOfNat _)]
        rw [r12_neg haneg, r12_nonneg (not_lt.mp hbneg)]
      · by_cases haz : posr a = 0
        · have htostr : Cx.toStr ⟨a, b⟩ = litOfNat (posr b) ++ ['j'] := by
            simp only [Cx.toStr]
            rw [niceround_nonneg (not_lt.mp hbneg),
              niceround_nonneg (not_lt.mp haneg), haz, litOfNat_zero]
            rw [if_pos hcond, if_neg (by simp)]
          have hstr : Cx.toStr ⟨a, b⟩ = List.flatten
              [litOfNat (posr b), ['j']] := by
            rw [htostr]
            simp
          have hok : OkSeq [litOfNat (posr b), ['j']] :=
            ⟨Or.inl ⟨numTok_litOfNat _, Or.inr (Or.inr rfl)⟩, Or.inr rfl⟩
          have hp := tokenize_ok hok (by simp)
          rw [← hstr] at hp
          simp only [List.map_cons, List.map_nil] at hp
          rw [show String.mk ['j'] = "j" from rfl] at hp
          rw [EV_pos_j hp (pn_litOfNat _)]
          rw [r12_zero_of_nonneg haneg haz, r12_nonneg (not_lt.mp hbneg)]
        · have htostr : Cx.toStr ⟨a, b⟩ = litOfNat (posr a) ++
              ('+' :: (litOfNat (posr b) ++ ['j'])) := by
            simp only [Cx.toStr]
            rw [niceround_nonneg (not_lt.mp hbneg),
              niceround_nonneg (not_lt.mp haneg)]
            rw [if_pos hcond,
              if_pos (fun h => haz (litOfNat_eq_zero_iff.mp h)),
              if_pos (not_lt.mp hbneg)]
          have hstr : Cx.toStr ⟨a, b⟩ = List.flatten
              [litOfNat (posr a), ['+'], litOfNat (posr b), ['j']] := by
            rw [htostr]
            simp
          have hok : OkSeq
              [litOfNat (posr a), ['+'], litOfNat (posr b), ['j']] :=
            ⟨Or.inl ⟨numTok_litOfNat _, Or.inl rfl⟩,
              Or.inr ⟨Or.inl rfl, numTok_litOfNat _⟩,
              Or.inl ⟨numTok_litOfNat _, Or.inr (Or.inr rfl)⟩, Or.inr rfl⟩
          have hp := tokenize_ok hok (by simp)
          rw [← hstr] at hp
          simp only [List.map_cons, List.map_nil] at hp
          rw [show String.mk ['+'] = "+" from rfl,
            show String.mk ['j'] = "j" from rfl] at hp
          rw [EV_pos_plus hp (pn_litOfNat _) (pn_litOfNat _)]
          rw [r12_nonneg (not_lt.mp haneg), r12_nonneg (not_lt.mp hbneg)]
